import Mathlib

/-!
# Verification of the pydmc combinatorial index-generation engine

This file gives a shallow embedding of `src/_count.pyx` (the core of
`pydmc.count`) and proves properties of it:

* `_IntArray.map_to_tuple` (gather) is modeled by `map_to_tuple`;
* `LexicographicIterator` is modeled by `LexCfg` / `lexInit` /
  `rolloverFrom` / `lexStep` / `LexState` / `lexPull`;
* `PermutationIterator` is modeled by `PermState` / `permStep` / `permPull`;
* `count_permutations3`, `sort2_int`, `sort3_int`, `sort4_int` are modeled
  by functions of the same names.

C `int` values are modeled by `Int` (no claim under study exercises
machine-width overflow).  Buffer cells are read with `List.getD _ _ 0`;
reads that the C code would perform out of the allocated bounds (undefined
behaviour in C, reachable only through configurations the original
validation wrongly accepts) are thereby modeled as reading `0`, and
uninitialized malloc'd cells are modeled as holding `0`.  Python exceptions
are modeled with `Except` / `Option` / an explicit result type.
-/

namespace Pydmc

/-! ## Strict lexicographic order on integer lists -/

/-- Strict lexicographic order on `List Int`: the standard first-difference
order, with a proper prefix counting as smaller. -/
def lexLt : List Int → List Int → Prop
  | _, [] => False
  | [], _ :: _ => True
  | a :: as, b :: bs => a < b ∨ (a = b ∧ lexLt as bs)

instance lexLt.instDecidable : ∀ u v : List Int, Decidable (lexLt u v)
  | [], [] => isFalse (by simp [lexLt])
  | _ :: _, [] => isFalse (by simp [lexLt])
  | [], _ :: _ => isTrue (by simp [lexLt])
  | a :: as, b :: bs =>
      haveI := lexLt.instDecidable as bs
      decidable_of_iff (a < b ∨ (a = b ∧ lexLt as bs)) (by simp [lexLt])

theorem lexLt_irrefl : ∀ u : List Int, ¬ lexLt u u
  | [] => by simp [lexLt]
  | a :: as => by
      simp only [lexLt, lt_self_iff_false, false_or, true_and]
      exact lexLt_irrefl as

theorem lexLt_trans : ∀ {u v w : List Int}, lexLt u v → lexLt v w → lexLt u w
  | _, _, [] , _, h2 => absurd h2 (by simp [lexLt])
  | _, [], _ :: _, h1, _ => absurd h1 (by simp [lexLt])
  | [], _ :: _, _ :: _, _, _ => by simp [lexLt]
  | a :: as, b :: bs, c :: cs, h1, h2 => by
      simp only [lexLt] at h1 h2 ⊢
      rcases h1 with h1 | ⟨rfl, h1⟩
      · rcases h2 with h2 | ⟨rfl, _⟩
        · exact Or.inl (lt_trans h1 h2)
        · exact Or.inl h1
      · rcases h2 with h2 | ⟨rfl, h2⟩
        · exact Or.inl h2
        · exact Or.inr ⟨rfl, lexLt_trans h1 h2⟩

theorem lexLt_asymm {u v : List Int} (h : lexLt u v) : ¬ lexLt v u :=
  fun h' => lexLt_irrefl u (lexLt_trans h h')

theorem lexLt_trichotomy : ∀ u v : List Int, lexLt u v ∨ u = v ∨ lexLt v u
  | [], [] => by simp
  | [], _ :: _ => by simp [lexLt]
  | _ :: _, [] => by simp [lexLt]
  | a :: as, b :: bs => by
      rcases lt_trichotomy a b with h | rfl | h
      · exact Or.inl (by simp [lexLt, h])
      · rcases lexLt_trichotomy as bs with h | rfl | h
        · exact Or.inl (by simp [lexLt, h])
        · exact Or.inr (Or.inl rfl)
        · exact Or.inr (Or.inr (by simp [lexLt, h]))
      · exact Or.inr (Or.inr (by simp [lexLt, h]))

/-- A strict head comparison decides `lexLt` for lists with a common
prefix. -/
theorem lexLt_append_iff : ∀ (C u v : List Int), lexLt (C ++ u) (C ++ v) ↔ lexLt u v
  | [], _, _ => Iff.rfl
  | c :: C, u, v => by
      simp only [List.cons_append, lexLt, lt_self_iff_false, false_or, true_and]
      exact lexLt_append_iff C u v

theorem lexLt_of_head_lt {a b : Int} (C u v : List Int) (h : a < b) :
    lexLt (C ++ a :: u) (C ++ b :: v) := by
  rw [lexLt_append_iff]
  exact Or.inl h

/-- First-difference form of `lexLt` for equal-length lists. -/
theorem lexLt_first_diff : ∀ {u v : List Int}, u.length = v.length → lexLt u v →
    ∃ t, t < u.length ∧ u.take t = v.take t ∧ u.getD t 0 < v.getD t 0
  | [], [], _, h => absurd h (by simp [lexLt])
  | [], _ :: _, hlen, _ => by simp at hlen
  | _ :: _, [], hlen, _ => by simp at hlen
  | a :: as, b :: bs, hlen, h => by
      simp only [lexLt] at h
      rcases h with h | ⟨rfl, h⟩
      · exact ⟨0, by simp, by simp, by simpa using h⟩
      · obtain ⟨t, ht, hta, htd⟩ := lexLt_first_diff (by simpa using hlen) h
        exact ⟨t + 1, by simpa using ht, by simpa using hta, by simpa using htd⟩

/-- If `v` dominates `u` pointwise then `u` is not lexicographically
below `v`... stated in the direction used later: pointwise lower bounds
rule out `lexLt`. -/
theorem not_lexLt_of_pointwise_le {u v : List Int} (hlen : u.length = v.length)
    (h : ∀ m, m < u.length → v.getD m 0 ≤ u.getD m 0) : ¬ lexLt u v := by
  intro hl
  obtain ⟨t, ht, _, htd⟩ := lexLt_first_diff hlen hl
  exact absurd (h t ht) (not_le.mpr htd)

/-- A strictly ascending list is lexicographically minimal among the
lists with the same multiset of elements. -/
theorem not_lexLt_of_sorted_min : ∀ {v w : List Int},
    List.Chain' (· < ·) v → w.Perm v → ¬ lexLt w v
  | [], w, _, hp => by
      rw [List.perm_nil.mp hp]
      exact lexLt_irrefl []
  | a :: as, w, hchain, hp => by
      match w, hp with
      | [], hp => exact absurd hp.length_eq (by simp)
      | b :: bs, hp =>
        intro hl
        simp only [lexLt] at hl
        have hchain' : List.Chain' (· < ·) as := hchain.tail
        have hmem : b = a ∨ b ∈ as := by
          have : b ∈ a :: as := hp.mem_iff.mp (by simp)
          simpa using this
        have hpw : List.Pairwise (· < ·) (a :: as) :=
          List.chain'_iff_pairwise.mp hchain
        rcases hl with hl | ⟨rfl, hl⟩
        · rcases hmem with rfl | hb
          · exact lt_irrefl b hl
          · exact absurd (List.rel_of_pairwise_cons hpw hb) (not_lt.mpr (le_of_lt hl))
        · exact not_lexLt_of_sorted_min hchain' (hp.cons_inv) hl

/-- A strictly descending list is lexicographically maximal among the
lists with the same multiset of elements. -/
theorem not_lexLt_of_sorted_max : ∀ {v w : List Int},
    List.Chain' (· > ·) v → w.Perm v → ¬ lexLt v w
  | [], w, _, hp => by
      rw [List.perm_nil.mp hp]
      exact lexLt_irrefl []
  | a :: as, w, hchain, hp => by
      match w, hp with
      | [], hp => exact absurd hp.length_eq (by simp)
      | b :: bs, hp =>
        intro hl
        simp only [lexLt] at hl
        have hchain' : List.Chain' (· > ·) as := hchain.tail
        have hmem : b = a ∨ b ∈ as := by
          have : b ∈ a :: as := hp.mem_iff.mp (by simp)
          simpa using this
        have hpw : List.Pairwise (· > ·) (a :: as) :=
          List.chain'_iff_pairwise.mp hchain
        rcases hl with hl | ⟨rfl, hl⟩
        · rcases hmem with rfl | hb
          · exact lt_irrefl _ hl
          · exact absurd (List.rel_of_pairwise_cons hpw hb) (not_lt.mpr (le_of_lt hl))
        · exact not_lexLt_of_sorted_max hchain' (hp.cons_inv) hl

/-- Non-strict companion of `lexLt`, used for sorting the reference
enumerations. -/
def lexLe (u v : List Int) : Prop := ¬ lexLt v u

instance : DecidableRel lexLe := fun _ _ => instDecidableNot

instance : IsTotal (List Int) lexLe where
  total u v := by
    rcases lexLt_trichotomy u v with h | rfl | h
    · exact Or.inl (lexLt_asymm h)
    · exact Or.inl (lexLt_irrefl u)
    · exact Or.inr (lexLt_asymm h)

instance : IsTrans (List Int) lexLe where
  trans u v w huv hvw := by
    intro hwu
    rcases lexLt_trichotomy u v with h | rfl | h
    · exact hvw (lexLt_trans hwu h)
    · exact hvw hwu
    · exact huv h

/-! ## Downward scan loops

Pyrex loops of the form `for g from k > g >= 0: if P g: break` check
`g = k-1, k-2, …, 0` in order and stop at the first position satisfying
`P`, i.e. they find the largest satisfying position below `k`.  `findLast`
models this scan. -/

/-- Largest `g < k` with `P g = true`, or `none` (the loop's `else`
branch). -/
def findLast (P : Nat → Bool) : Nat → Option Nat
  | 0 => none
  | k + 1 => if P k then some k else findLast P k

theorem findLast_eq_none {P : Nat → Bool} :
    ∀ {k : Nat}, findLast P k = none ↔ ∀ m, m < k → ¬ P m := by
  intro k
  induction k with
  | zero => simp [findLast]
  | succ k ih =>
    cases h : P k with
    | true =>
      simp only [findLast, h, if_true]
      constructor
      · intro hc; exact absurd hc (by simp)
      · intro hall; exact absurd h (hall k (Nat.lt_succ_self k))
    | false =>
      simp only [findLast, h, Bool.false_eq_true, if_false, ih]
      constructor
      · intro hall m hm
        rcases Nat.lt_succ_iff_lt_or_eq.mp hm with hm | rfl
        · exact hall m hm
        · simp [h]
      · intro hall m hm
        exact hall m (Nat.lt_succ_of_lt hm)

theorem findLast_eq_some {P : Nat → Bool} {g : Nat} :
    ∀ {k : Nat}, findLast P k = some g ↔
      g < k ∧ P g ∧ ∀ m, g < m → m < k → ¬ P m := by
  intro k
  induction k with
  | zero => simp [findLast]
  | succ k ih =>
    cases h : P k with
    | true =>
      simp only [findLast, h, if_true, Option.some_inj]
      constructor
      · rintro rfl
        exact ⟨Nat.lt_succ_self _, h,
          fun m hm hm' => absurd (Nat.lt_of_lt_of_le hm (Nat.lt_succ_iff.mp hm')) (lt_irrefl _)⟩
      · rintro ⟨hg, hPg, hmax⟩
        rcases Nat.lt_succ_iff_lt_or_eq.mp hg with hg' | rfl
        · exact absurd h (hmax k hg' (Nat.lt_succ_self k))
        · rfl
    | false =>
      simp only [findLast, h, Bool.false_eq_true, if_false, ih]
      constructor
      · rintro ⟨hg, hPg, hmax⟩
        refine ⟨Nat.lt_succ_of_lt hg, hPg, fun m hm hm' => ?_⟩
        rcases Nat.lt_succ_iff_lt_or_eq.mp hm' with hm'' | rfl
        · exact hmax m hm hm''
        · simp [h]
      · rintro ⟨hg, hPg, hmax⟩
        rcases Nat.lt_succ_iff_lt_or_eq.mp hg with hg' | rfl
        · exact ⟨hg', hPg, fun m hm hm' => hmax m hm (Nat.lt_succ_of_lt hm')⟩
        · exact absurd hPg (by simp [h])

theorem findLast_isSome {P : Nat → Bool} {k m : Nat} (hm : m < k) (hP : P m) :
    ∃ g, findLast P k = some g := by
  cases h : findLast P k with
  | some g => exact ⟨g, rfl⟩
  | none => exact absurd hP (findLast_eq_none.mp h m hm)

/-! ## Fuel-bounded iteration of a partial successor function

Both iterator classes are generators: they hand out the current index
tuple, then repeatedly apply an in-place successor step until the step
reports exhaustion.  `runStream` collects the emitted tuples; `haltsIn`
says the successor chain exhausts after exactly `m` steps. -/

/-- The list of states visited: the start state followed by successor
states, cut off either by exhaustion of `step` or by running out of
`fuel`. -/
def runStream (step : List Int → Option (List Int)) (t : List Int) : Nat → List (List Int)
  | 0 => []
  | fuel + 1 =>
    match step t with
    | none => [t]
    | some t' => t :: runStream step t' fuel

/-- The successor chain starting at `t` makes exactly `m` successful
steps and then reports exhaustion. -/
def haltsIn (step : List Int → Option (List Int)) : List Int → Nat → Prop
  | t, 0 => step t = none
  | t, m + 1 => ∃ t', step t = some t' ∧ haltsIn step t' m

theorem runStream_of_haltsIn {step : List Int → Option (List Int)} :
    ∀ {m : Nat} {t : List Int}, haltsIn step t m →
      ∀ fuel, m + 1 ≤ fuel → runStream step t fuel = runStream step t (m + 1) := by
  intro m
  induction m with
  | zero =>
    intro t ht fuel hf
    simp only [haltsIn] at ht
    obtain ⟨f, rfl⟩ := Nat.exists_eq_add_of_le hf
    have h1 : 0 + 1 + f = f + 1 := by omega
    rw [h1]
    simp [runStream, ht]
  | succ m ih =>
    intro t ht fuel hf
    obtain ⟨t', hstep, ht'⟩ := ht
    obtain ⟨f, rfl⟩ := Nat.exists_eq_add_of_le hf
    have h1 : m + 1 + 1 + f = (m + 1 + f) + 1 := by omega
    rw [h1]
    simp only [runStream, hstep]
    rw [ih ht' (m + 1 + f) (by omega)]
    rfl

/-- Invariance: a property preserved by the step holds for every state
the stream visits. -/
theorem runStream_invariant {step : List Int → Option (List Int)}
    {P : List Int → Prop}
    (hpres : ∀ t t', P t → step t = some t' → P t') :
    ∀ {fuel : Nat} {t : List Int}, P t → ∀ u, u ∈ runStream step t fuel → P u := by
  intro fuel
  induction fuel with
  | zero => intro t _ u hu; simp [runStream] at hu
  | succ fuel ih =>
    intro t hP u hu
    simp only [runStream] at hu
    cases hstep : step t with
    | none =>
      rw [hstep] at hu
      simp at hu
      rw [hu]; exact hP
    | some t' =>
      rw [hstep] at hu
      rcases List.mem_cons.mp hu with rfl | hu
      · exact hP
      · exact ih (hpres t t' hP hstep) u hu

/-- The central enumeration argument.  If `step` maps every valid state
to its immediate lexicographic successor among valid states (and to
`none` exactly at the maximum), then starting at the head of a sorted
list of valid states the run visits precisely that list. -/
theorem runStream_eq_of_sorted {step : List Int → Option (List Int)}
    {valid : List Int → Prop}
    (hnone : ∀ t, valid t → step t = none → ∀ u, valid u → ¬ lexLt t u)
    (hsome : ∀ t t', valid t → step t = some t' →
      valid t' ∧ lexLt t t' ∧ ∀ u, valid u → lexLt t u → ¬ lexLt u t') :
    ∀ (L : List (List Int)) (a : List Int), (a :: L).Pairwise lexLt →
      (∀ t, t ∈ a :: L → valid t) →
      (∀ u, valid u → lexLt a u → u ∈ L) →
      haltsIn step a L.length ∧
        ∀ fuel, L.length + 1 ≤ fuel → runStream step a fuel = a :: L := by
  intro L
  induction L with
  | nil =>
    intro a _ hval hclosure
    have hstep : step a = none := by
      cases hstep : step a with
      | none => rfl
      | some t' =>
        obtain ⟨ht', hlt, _⟩ := hsome a t' (hval a (by simp)) hstep
        exact absurd (hclosure t' ht' hlt) (by simp)
    refine ⟨hstep, ?_⟩
    intro fuel hf
    obtain ⟨f, rfl⟩ := Nat.exists_eq_add_of_le hf
    cases f <;> simp [runStream, hstep, Nat.add_comm]
  | cons b L ih =>
    intro a hsorted hval hclosure
    have hab : lexLt a b := List.rel_of_pairwise_cons hsorted (by simp)
    have hstep : step a = some b := by
      cases hstep : step a with
      | none =>
        exact absurd hab (hnone a (hval a (by simp)) hstep b (hval b (by simp)))
      | some t' =>
        obtain ⟨ht', hlt, hmin⟩ := hsome a t' (hval a (by simp)) hstep
        have ht'mem : t' ∈ b :: L := hclosure t' ht' hlt
        rcases List.mem_cons.mp ht'mem with rfl | ht'L
        · rfl
        · have hbt' : lexLt b t' :=
            List.rel_of_pairwise_cons (List.pairwise_cons.mp hsorted).2 ht'L
          exact absurd hbt' (hmin b (hval b (by simp)) hab)
    have ihres := ih b (List.pairwise_cons.mp hsorted).2
      (fun t ht => hval t (List.mem_cons_of_mem a ht))
      (by
        intro u hu hbu
        have hau : lexLt a u := lexLt_trans hab hbu
        have : u ∈ b :: L := hclosure u hu hau
        rcases List.mem_cons.mp this with rfl | huL
        · exact absurd hbu (lexLt_irrefl u)
        · exact huL)
    refine ⟨⟨b, hstep, ihres.1⟩, ?_⟩
    intro fuel hf
    obtain ⟨f, rfl⟩ := Nat.exists_eq_add_of_le hf
    have h1 : (b :: L).length + 1 + f = (L.length + 1 + f) + 1 := by
      simp only [List.length_cons]; omega
    rw [h1]
    simp only [runStream, hstep]
    rw [ihres.2 (L.length + 1 + f) (by omega)]

/-! ## Model of `_IntArray.map_to_tuple` (gather)

`_count.pyx` lines 45–62: build a fresh tuple whose slot `i` holds
`objs[data[i]]`, raising `IndexError` when `PyTuple_GetItem` rejects the
index (any index outside `[0, len objs)`, negative ones included — the C
API does not wrap). -/

/-- `PyTuple_GetItem objs n`: `some` element or `none` (= `IndexError`). -/
def tupleGet {α : Type} (objs : List α) (n : Int) : Option α :=
  if h : 0 ≤ n ∧ n.toNat < objs.length then some (objs.get ⟨n.toNat, h.2⟩) else none

/-- `_IntArray.map_to_tuple`: gather `objs` at the stored indices;
`none` models the `IndexError`. -/
def map_to_tuple {α : Type} (data : List Int) (objs : List α) : Option (List α) :=
  data.mapM (tupleGet objs)

/-- Result of one `__next__` call: a produced tuple, the `StopIteration`
end-of-sequence signal, or an `IndexError` escaping from the gather. -/
inductive PullResult (α : Type) where
  | item : List α → PullResult α
  | stop : PullResult α
  | indexError : PullResult α
deriving DecidableEq, Repr

/-- `toRes o` packages a gather outcome as a `__next__` result. -/
def toRes {α : Type} : Option (List α) → PullResult α
  | some l => PullResult.item l
  | none => PullResult.indexError

/-! ## Model of `LexicographicIterator` (`_count.pyx` lines 109–202) -/

/-- The configuration stored by `LexicographicIterator.__init__`:
`k = len(limits)`, `limits` already decremented (maximum valid value),
`index_map` with all negative entries collapsed to `-1`, and the
increments. -/
structure LexCfg where
  k : Nat
  limits : List Int
  index_map : List Int
  increments : List Int
deriving DecidableEq, Repr

/-- `LexicographicIterator.__init__` validation and storage (lines
115–130): store `limits[i] - 1`; for each `i < k` map a negative
`index_map[i]` to `-1`, raise `ValueError` when `index_map[i] > k`, and
store it otherwise.  (`limits`, `index_map` and `increments` are expected
to have length `k`; the loop reads `index_map[i]` for `i < k`.) -/
def storeIndexMap (k : Nat) (index_map : List Int) : List Nat → Except String (List Int)
  | [] => Except.ok []
  | i :: rest =>
    if index_map.getD i 0 < 0 then
      match storeIndexMap k index_map rest with
      | Except.error e => Except.error e
      | Except.ok vs => Except.ok ((-1 : Int) :: vs)
    else if (k : Int) < index_map.getD i 0 then
      Except.error "index map is out of range"
    else
      match storeIndexMap k index_map rest with
      | Except.error e => Except.error e
      | Except.ok vs => Except.ok (index_map.getD i 0 :: vs)

def lexInit (limits index_map increments : List Int) : Except String LexCfg :=
  match storeIndexMap limits.length index_map (List.range limits.length) with
  | Except.error e => Except.error e
  | Except.ok ims =>
    Except.ok ⟨limits.length, limits.map (fun x => x - 1), ims, increments⟩

/-- One iteration of the body of `rollover_next` (lines 142–147): set
`T[i]` to `0` (sentinel) or to `T[index_map[i]] + increments[i]`. -/
def rolloverStep (cfg : LexCfg) (T : List Int) (i : Nat) : List Int :=
  if cfg.index_map.getD i 0 < 0 then T.set i 0
  else T.set i (T.getD (cfg.index_map.getD i 0).toNat 0 + cfg.increments.getD i 0)

/-- Structural engine of the rollover loop: `fuel` counts the remaining
iterations (`cfg.k - i` at entry), so the recursion mirrors
`for i from g+1 <= i < k` exactly. -/
def rolloverGo (cfg : LexCfg) : List Int → Nat → Nat → List Int
  | T, _, 0 => T
  | T, i, fuel + 1 => rolloverGo cfg (rolloverStep cfg T i) (i + 1) fuel

/-- `rollover_next(g)`'s loop `for i from g+1 <= i < k`, entered here at
position `i` (so `rollover_next g = rolloverFrom (g+1)`). -/
def rolloverFrom (cfg : LexCfg) (T : List Int) (i : Nat) : List Int :=
  rolloverGo cfg T i (cfg.k - i)

/-- The loop view of `rolloverFrom`: one iteration while `i < k`. -/
theorem rolloverFrom_unfold (cfg : LexCfg) (T : List Int) (i : Nat) :
    rolloverFrom cfg T i =
      if i < cfg.k then rolloverFrom cfg (rolloverStep cfg T i) (i + 1) else T := by
  unfold rolloverFrom
  rcases Nat.lt_or_ge i cfg.k with h | h
  · rw [if_pos h]
    have harith : cfg.k - i = (cfg.k - (i + 1)) + 1 := by omega
    rw [harith]
    rfl
  · rw [if_neg (by omega)]
    have harith : cfg.k - i = 0 := by omega
    rw [harith]
    rfl

/-- The initial `T` built at the end of `__init__` (lines 132–134):
`T[0] = 0` then `rollover_next(0)`.  The freshly malloc'd (uninitialized)
cells are modeled as holding `0`. -/
def lexInitT (cfg : LexCfg) : List Int :=
  rolloverFrom cfg ((List.replicate cfg.k (0 : Int)).set 0 0) 1

/-- `LexicographicIterator._next` (lines 178–190) as a partial successor
function on `T`: find the right-most `g` with `T[g] < limits[g]`
(`none` = the `else` branch, generator exhausted), increment it, and roll
over everything to its right. -/
def lexStep (cfg : LexCfg) (T : List Int) : Option (List Int) :=
  match findLast (fun g => decide (T.getD g 0 < cfg.limits.getD g 0)) cfg.k with
  | none => none
  | some g => some (rolloverFrom cfg (T.set g (T.getD g 0 + 1)) (g + 1))

/-- Full iterator state: configuration, current `T`, and the
`generator_state` flag (0 = not started, 1 = running, 2 = exhausted). -/
structure LexState where
  cfg : LexCfg
  T : List Int
  generator_state : Nat
deriving DecidableEq, Repr

/-- `LexicographicIterator._next` acting on the full state: on success the
buffer is replaced, on exhaustion only the flag changes. -/
def lex_next (s : LexState) : LexState :=
  match lexStep s.cfg s.T with
  | none => { s with generator_state := 2 }
  | some T' => { s with T := T' }

/-- `LexicographicIterator.__next__` (lines 192–202): first call emits the
current tuple; an exhausted iterator raises `StopIteration`; otherwise
step, then either stop or emit. -/
def lexPull {α : Type} (objs : List α) (s : LexState) : PullResult α × LexState :=
  if s.generator_state = 0 then
    (toRes (map_to_tuple s.T objs), { s with generator_state := 1 })
  else if s.generator_state = 2 then (PullResult.stop, s)
  else
    let s' := lex_next s
    if s'.generator_state = 2 then (PullResult.stop, s')
    else (toRes (map_to_tuple s'.T objs), s')

/-- `m` successive `__next__` calls on a `LexicographicIterator`. -/
def lexPullN {α : Type} (objs : List α) (s : LexState) : Nat → List (PullResult α) × LexState
  | 0 => ([], s)
  | m + 1 =>
    let p := lexPull objs s
    let r := lexPullN objs p.2 m
    (p.1 :: r.1, r.2)

/-! ## Model of `PermutationIterator` (`_count.pyx` lines 206–279) -/

/-- `[lo, lo+1, …, lo+n-1]` as integers. -/
def rangeInt (lo : Int) (n : Nat) : List Int :=
  (List.range n).map (fun (m : Nat) => lo + (m : Int))

/-- Structural engine of the reversal loop: `fuel` counts the remaining
swaps (`(hi - lo + 1) / 2` at entry). -/
def revSwapGo : List Int → Nat → Nat → Nat → List Int
  | l, _, _, 0 => l
  | l, lo, hi, fuel + 1 =>
    revSwapGo ((l.set lo (l.getD hi 0)).set hi (l.getD lo 0)) (lo + 1) (hi - 1) fuel

/-- In-place reversal loop of `_next` step 4 (lines 256–263): swap
`perm[lo]` and `perm[hi]` while `lo < hi` (the source writes the upper
index as `kc = n - k + i`, which decreases by one as `k` increases). -/
def revSwap (l : List Int) (lo hi : Nat) : List Int :=
  revSwapGo l lo hi ((hi - lo + 1) / 2)

/-- The loop view of `revSwap`: one swap while `lo < hi`. -/
theorem revSwap_unfold (l : List Int) (lo hi : Nat) :
    revSwap l lo hi =
      if lo < hi then
        revSwap ((l.set lo (l.getD hi 0)).set hi (l.getD lo 0)) (lo + 1) (hi - 1)
      else l := by
  unfold revSwap
  rcases Nat.lt_or_ge lo hi with h | h
  · rw [if_pos h]
    have harith : (hi - lo + 1) / 2 = ((hi - 1 - (lo + 1) + 1) / 2) + 1 := by omega
    rw [harith]
    rfl
  · rw [if_neg (by omega)]
    have harith : (hi - lo + 1) / 2 = 0 := by omega
    rw [harith]
    rfl

/-- `PermutationIterator._next` (lines 225–263) as a partial successor
function on the permutation buffer.  Step 1 scans `i` from `n-2` down for
`perm[i+1] >= perm[i]`; step 2 scans `j` from `n-1` down for
`perm[j] >= perm[i]` (the `getD … 0` default covers the case where the C
loop would fall through, leaving `j` out of range — unreachable after a
successful step 1); steps 3 and 4 swap and reverse the tail. -/
def permStep (p : List Int) : Option (List Int) :=
  match findLast (fun i => decide (p.getD i 0 ≤ p.getD (i + 1) 0)) (p.length - 1) with
  | none => none
  | some i =>
    let pi := p.getD i 0
    let j := (findLast (fun j => decide (pi ≤ p.getD j 0)) p.length).getD 0
    let p1 := (p.set i (p.getD j 0)).set j pi
    some (revSwap p1 (i + 1) (p.length - 1))

/-- Full `PermutationIterator` state. -/
structure PermState where
  perm : List Int
  generator_state : Nat
deriving DecidableEq, Repr

/-- `PermutationIterator.__init__` (lines 211–218): identity permutation
of the item positions, not started. -/
def permInit {α : Type} (objs : List α) : PermState :=
  ⟨rangeInt 0 objs.length, 0⟩

/-- `PermutationIterator._next` on the full state. -/
def perm_next (s : PermState) : PermState :=
  match permStep s.perm with
  | none => { s with generator_state := 2 }
  | some p' => { s with perm := p' }

/-- `PermutationIterator.__next__` (lines 265–279), including the
special-cased immediately-terminal `n = 1`. -/
def permPull {α : Type} (objs : List α) (s : PermState) : PullResult α × PermState :=
  if s.generator_state = 0 then
    if s.perm.length = 1 then
      (toRes (map_to_tuple s.perm objs), { s with generator_state := 2 })
    else
      (toRes (map_to_tuple s.perm objs), { s with generator_state := 1 })
  else if s.generator_state = 2 then (PullResult.stop, s)
  else
    let s' := perm_next s
    if s'.generator_state = 2 then (PullResult.stop, s')
    else (toRes (map_to_tuple s'.perm objs), s')

/-- `m` successive `__next__` calls on a `PermutationIterator`. -/
def permPullN {α : Type} (objs : List α) (s : PermState) : Nat → List (PullResult α) × PermState
  | 0 => ([], s)
  | m + 1 =>
    let p := permPull objs s
    let r := permPullN objs p.2 m
    (p.1 :: r.1, r.2)

/-! ## Models of the counting and sorting helpers -/

/-- `count_permutations3` (lines 293–310), verbatim branch structure. -/
def count_permutations3 {α : Type} [DecidableEq α] (l0 l1 l2 : α) : Nat :=
  if l0 = l1 then
    if l1 = l2 then 1 else 3
  else
    if l1 = l2 then 3
    else if l0 = l2 then 1
    else 6

/-- `sort2_int` (lines 350–353). -/
def sort2_int (a b : Int) : Int × Int :=
  if a > b then (b, a) else (a, b)

/-- `sort3_int` (lines 355–362), with the in-place swaps written out:
the first branch swaps `s0`/`s2` and then conditionally `s1`/`s2`. -/
def sort3_int (s0 s1 s2 : Int) : Int × Int × Int :=
  if s0 > s2 then
    -- after `s0, s2 = s2, s0` the names hold `s2`, `s1`, `s0`
    if s1 > s0 then (s2, s0, s1) else (s2, s1, s0)
  else if s0 > s1 then (s1, s0, s2)
  else (s0, s1, s2)

/-- `sort4_int` (lines 364–381): the five compare-and-swap stages on
`(s0, s1, s2, s3)`. -/
def sort4_int (i0 i1 i2 i3 : Int) : Int × Int × Int × Int :=
  let s1 := if i1 > i3 then i3 else i1
  let s3 := if i1 > i3 then i1 else i3
  let s0 := if i0 > i2 then i2 else i0
  let s2 := if i0 > i2 then i0 else i2
  let s2' := if s2 > s3 then s3 else s2
  let s3' := if s2 > s3 then s2 else s3
  let s0' := if s0 > s1 then s1 else s0
  let s1' := if s0 > s1 then s0 else s1
  let s1'' := if s1' > s2' then s2' else s1'
  let s2'' := if s1' > s2' then s1' else s2'
  (s0', s1'', s2'', s3')

/-! ## List bookkeeping lemmas (indexing with `getD`) -/

theorem ext_getD {u v : List Int} (hlen : u.length = v.length)
    (h : ∀ m, m < u.length → u.getD m 0 = v.getD m 0) : u = v := by
  refine List.ext_getElem hlen ?_
  intro m h1 h2
  have := h m h1
  rwa [List.getD_eq_getElem _ _ h1, List.getD_eq_getElem _ _ h2] at this

theorem getD_set_self {l : List Int} {i : Nat} {v : Int} (h : i < l.length) :
    (l.set i v).getD i 0 = v := by
  rw [List.getD_eq_getElem?_getD, List.getElem?_set]
  simp [h]

theorem getD_set_other {l : List Int} {i j : Nat} {v : Int} (h : i ≠ j) :
    (l.set i v).getD j 0 = l.getD j 0 := by
  rw [List.getD_eq_getElem?_getD, List.getElem?_set, if_neg h, ← List.getD_eq_getElem?_getD]

theorem getD_append_left {u v : List Int} {m : Nat} (h : m < u.length) :
    (u ++ v).getD m 0 = u.getD m 0 := by
  rw [List.getD_eq_getElem?_getD, List.getD_eq_getElem?_getD,
    List.getElem?_append_left h]

theorem getD_append_right (u v : List Int) (m : Nat) :
    (u ++ v).getD (u.length + m) 0 = v.getD m 0 := by
  rw [List.getD_eq_getElem?_getD, List.getD_eq_getElem?_getD,
    List.getElem?_append_right (by omega), Nat.add_sub_cancel_left]

theorem getD_append_sub {u v : List Int} {m : Nat} (h : u.length ≤ m) :
    (u ++ v).getD m 0 = v.getD (m - u.length) 0 := by
  rw [List.getD_eq_getElem?_getD, List.getD_eq_getElem?_getD,
    List.getElem?_append_right h]

theorem getD_cons_succ {a : Int} (l : List Int) (m : Nat) :
    (a :: l).getD (m + 1) 0 = l.getD m 0 := rfl

theorem getD_oob {l : List Int} {m : Nat} (h : l.length ≤ m) : l.getD m 0 = 0 := by
  rw [List.getD_eq_getElem?_getD, List.getElem?_eq_none h]
  rfl

theorem drop_eq_getD_cons {l : List Int} {i : Nat} (h : i < l.length) :
    l.drop i = l.getD i 0 :: l.drop (i + 1) := by
  rw [List.getD_eq_getElem _ _ h]
  exact List.drop_eq_getElem_cons h

theorem take_succ_getD {l : List Int} {i : Nat} (h : i < l.length) :
    l.take (i + 1) = l.take i ++ [l.getD i 0] := by
  rw [List.take_succ, List.getElem?_eq_getElem h, List.getD_eq_getElem _ _ h]
  rfl

theorem set_eq_segments {l : List Int} {i : Nat} {v : Int} (h : i < l.length) :
    l.set i v = l.take i ++ v :: l.drop (i + 1) := by
  rw [List.set_eq_take_append_cons_drop, if_pos h]

theorem getD_take {l : List Int} {m t : Nat} (hm : m < t) :
    (l.take t).getD m 0 = l.getD m 0 := by
  rw [List.getD_eq_getElem?_getD, List.getD_eq_getElem?_getD, List.getElem?_take,
    if_pos hm]

theorem take_eq_take_of_getD {u v : List Int} {t : Nat} (htu : t ≤ u.length)
    (htv : t ≤ v.length) (h : ∀ m, m < t → u.getD m 0 = v.getD m 0) :
    u.take t = v.take t := by
  refine ext_getD (by simp; omega) ?_
  intro m hm
  simp only [List.length_take] at hm
  have hmt : m < t := lt_of_lt_of_le hm (min_le_left _ _)
  rw [getD_take hmt, getD_take hmt]
  exact h m hmt

theorem getD_of_take_eq {u v : List Int} {t m : Nat} (h : u.take t = v.take t)
    (hm : m < t) : u.getD m 0 = v.getD m 0 := by
  have h1 : (u.take t).getD m 0 = (v.take t).getD m 0 := by rw [h]
  rwa [getD_take hm, getD_take hm] at h1

/-- `Chain'` through `getD` indexing. -/
theorem chain'_iff_getD {r : Int → Int → Prop} {l : List Int} :
    List.Chain' r l ↔ ∀ m, m + 1 < l.length → r (l.getD m 0) (l.getD (m + 1) 0) := by
  rw [List.chain'_iff_get]
  constructor
  · intro h m hm
    have h1 : m < l.length := by omega
    have h2 : m + 1 < l.length := hm
    rw [List.getD_eq_getElem _ _ h1, List.getD_eq_getElem _ _ h2]
    exact h m (by omega)
  · intro h m hm
    have h1 : m < l.length := by omega
    have h2 : m + 1 < l.length := by omega
    have := h m h2
    rw [List.getD_eq_getElem _ _ h1, List.getD_eq_getElem _ _ h2] at this
    exact this

/-- Gaps in a strictly ascending integer list grow at least linearly. -/
theorem chain_lt_getD_bound {u : List Int} (hc : List.Chain' (· < ·) u) :
    ∀ {i j : Nat}, i ≤ j → j < u.length → u.getD i 0 + (j - i : Nat) ≤ u.getD j 0 := by
  intro i j hij hj
  induction j with
  | zero =>
    have : i = 0 := Nat.le_zero.mp hij
    subst this
    simp
  | succ j ih =>
    rcases Nat.lt_succ_iff_lt_or_eq.mp (Nat.lt_succ_of_le hij) with h | rfl
    · have hstep := chain'_iff_getD.mp hc j hj
      have := ih (by omega) (by omega)
      have harith : ((j + 1 - i : Nat) : Int) = ((j - i : Nat) : Int) + 1 := by
        omega
      omega
    · simp

theorem mem_iff_getD {x : Int} {l : List Int} :
    x ∈ l ↔ ∃ m, m < l.length ∧ l.getD m 0 = x := by
  rw [List.mem_iff_getElem]
  constructor
  · rintro ⟨m, hm, rfl⟩
    exact ⟨m, hm, List.getD_eq_getElem _ _ hm⟩
  · rintro ⟨m, hm, h⟩
    exact ⟨m, hm, by rwa [List.getD_eq_getElem _ _ hm] at h⟩

/-- `lexLt` from a first difference, `getD` form. -/
theorem lexLt_of_getD : ∀ {u v : List Int}, u.length = v.length →
    ∀ {t : Nat}, t < u.length → u.take t = v.take t → u.getD t 0 < v.getD t 0 →
      lexLt u v := by
  intro u
  induction u with
  | nil => intro v _ t ht; simp at ht
  | cons a as ih =>
    intro v hlen t ht htake hd
    cases v with
    | nil => simp at hlen
    | cons b bs =>
      cases t with
      | zero =>
        simp only [List.getD] at hd
        exact Or.inl (by simpa using hd)
      | succ t =>
        simp only [List.take_succ_cons, List.cons.injEq] at htake
        refine Or.inr ⟨htake.1, ?_⟩
        exact ih (by simpa using hlen) (by simpa using ht) htake.2 hd

/-! ## Behaviour of the rollover loop -/

theorem rolloverStep_length (cfg : LexCfg) (T : List Int) (i : Nat) :
    (rolloverStep cfg T i).length = T.length := by
  unfold rolloverStep
  split <;> simp

theorem rolloverFrom_length (cfg : LexCfg) (T : List Int) (i : Nat) :
    (rolloverFrom cfg T i).length = T.length := by
  rw [rolloverFrom_unfold]
  split
  · rw [rolloverFrom_length, rolloverStep_length]
  · rfl
termination_by cfg.k - i

/-- Positions before the entry point (and positions at or past `k`) are
not written by the rollover loop. -/
theorem rolloverFrom_getD_frozen (cfg : LexCfg) (T : List Int) (i : Nat) {m : Nat}
    (h : m < i ∨ cfg.k ≤ m) : (rolloverFrom cfg T i).getD m 0 = T.getD m 0 := by
  rw [rolloverFrom_unfold]
  split
  · next hik =>
    rw [rolloverFrom_getD_frozen cfg _ (i + 1) (by omega)]
    unfold rolloverStep
    have hne : i ≠ m := by omega
    split <;> rw [getD_set_other hne]
  · rfl
termination_by cfg.k - i

/-- A sentinel position processed by the rollover loop ends at `0`. -/
theorem rolloverFrom_getD_sentinel (cfg : LexCfg) (T : List Int) (i : Nat) {m : Nat}
    (hT : T.length = cfg.k) (him : cfg.index_map.getD m 0 < 0)
    (h1 : i ≤ m) (h2 : m < cfg.k) : (rolloverFrom cfg T i).getD m 0 = 0 := by
  rw [rolloverFrom_unfold]
  split
  · next hik =>
    rcases Nat.eq_or_lt_of_le h1 with rfl | hlt
    · rw [rolloverFrom_getD_frozen cfg _ (i + 1) (Or.inl (by omega))]
      unfold rolloverStep
      rw [if_pos him, getD_set_self (by omega)]
    · exact rolloverFrom_getD_sentinel cfg _ (i + 1)
        (by rw [rolloverStep_length]; exact hT) him hlt h2
  · next hik => omega
termination_by cfg.k - i

/-! ## The k-subset configuration (spec §4.2 and `_count.pyx` lines 93–97):
`limits[i] = n-k+i+1`, `index_map[i] = i-1`, `increments[i] = 1`. -/

/-- The raw `limits` argument for k-subsets of n items. -/
def subLimits (n k : Nat) : List Int :=
  (List.range k).map (fun (i : Nat) => ((n : Int) - (k : Int) + (i : Int) + 1))

/-- The raw `index_map` argument for k-subsets. -/
def subIndexMap (k : Nat) : List Int :=
  (List.range k).map (fun (i : Nat) => (i : Int) - 1)

/-- The raw `increments` argument for k-subsets. -/
def subIncrements (k : Nat) : List Int := List.replicate k 1

/-- The configuration `__init__` stores for the k-subset arguments. -/
def subCfg (n k : Nat) : LexCfg :=
  ⟨k, (List.range k).map (fun (i : Nat) => ((n : Int) - (k : Int) + (i : Int))),
    (List.range k).map (fun (i : Nat) => (i : Int) - 1), List.replicate k 1⟩

theorem getD_map_range {f : Nat → Int} {k m : Nat} (h : m < k) :
    ((List.range k).map f).getD m 0 = f m := by
  rw [List.getD_eq_getElem _ _ (by simpa using h), List.getElem_map, List.getElem_range]

theorem getD_replicate {v : Int} {k m : Nat} (h : m < k) :
    (List.replicate k v).getD m 0 = v := by
  rw [List.getD_eq_getElem _ _ (by simpa using h), List.getElem_replicate]

theorem rangeInt_length (lo : Int) (n : Nat) : (rangeInt lo n).length = n := by
  rw [rangeInt, List.length_map, List.length_range]

theorem rangeInt_getD {lo : Int} {n m : Nat} (h : m < n) :
    (rangeInt lo n).getD m 0 = lo + m := by
  show ((List.range n).map _).getD m 0 = _
  exact getD_map_range h

theorem subCfg_k (n k : Nat) : (subCfg n k).k = k := rfl

theorem subCfg_limits_getD (n k : Nat) {g : Nat} (h : g < k) :
    (subCfg n k).limits.getD g 0 = (n : Int) - k + g := by
  show ((List.range k).map _).getD g 0 = _
  exact getD_map_range h

theorem subCfg_index_map_getD (n k : Nat) {g : Nat} (h : g < k) :
    (subCfg n k).index_map.getD g 0 = (g : Int) - 1 := by
  show ((List.range k).map _).getD g 0 = _
  exact getD_map_range h

theorem subCfg_increments_getD (n k : Nat) {g : Nat} (h : g < k) :
    (subCfg n k).increments.getD g 0 = 1 := by
  show (List.replicate k (1 : Int)).getD g 0 = 1
  exact getD_replicate h

theorem storeIndexMap_ok {k : Nat} {index_map : List Int} {g : Nat → Int} :
    ∀ l : List Nat,
      (∀ a ∈ l, index_map.getD a 0 ≤ (k : Int) ∧
        (if index_map.getD a 0 < 0 then (-1 : Int) else index_map.getD a 0) = g a) →
      storeIndexMap k index_map l = Except.ok (l.map g)
  | [], _ => rfl
  | a :: l, h => by
      obtain ⟨hle, hval⟩ := h a (by simp)
      have hrest := storeIndexMap_ok l (fun b hb => h b (by simp [hb]))
      rw [storeIndexMap]
      by_cases hneg : index_map.getD a 0 < 0
      · rw [if_pos hneg, hrest]
        rw [if_pos hneg] at hval
        rw [hval]
        rfl
      · rw [if_neg hneg, if_neg (by omega), hrest]
        rw [if_neg hneg] at hval
        rw [hval]
        rfl

theorem storeIndexMap_error_iff (k : Nat) (index_map : List Int) :
    ∀ l : List Nat,
      (∃ e, storeIndexMap k index_map l = Except.error e) ↔
        ∃ a ∈ l, (k : Int) < index_map.getD a 0 := by
  intro l
  induction l with
  | nil =>
    constructor
    · rintro ⟨e, he⟩
      exact absurd he (fun h => Except.noConfusion h)
    · rintro ⟨a, ha, _⟩
      simp at ha
  | cons a l ih =>
    rw [storeIndexMap]
    by_cases hneg : index_map.getD a 0 < 0
    · rw [if_pos hneg]
      cases hrest : storeIndexMap k index_map l with
      | error e =>
        constructor
        · intro _
          obtain ⟨b, hb, hgt⟩ := ih.mp ⟨e, hrest⟩
          exact ⟨b, by simp [hb], hgt⟩
        · intro _
          exact ⟨e, rfl⟩
      | ok vs =>
        constructor
        · rintro ⟨e, he⟩
          exact absurd he (fun h => Except.noConfusion h)
        · rintro ⟨b, hb, hgt⟩
          rcases List.mem_cons.mp hb with rfl | hb'
          · omega
          · obtain ⟨e, he⟩ := ih.mpr ⟨b, hb', hgt⟩
            rw [hrest] at he
            exact absurd he (fun h => Except.noConfusion h)
    · rw [if_neg hneg]
      by_cases hgt : (k : Int) < index_map.getD a 0
      · rw [if_pos hgt]
        constructor
        · intro _
          exact ⟨a, by simp, hgt⟩
        · intro _
          exact ⟨_, rfl⟩
      · rw [if_neg hgt]
        cases hrest : storeIndexMap k index_map l with
        | error e =>
          constructor
          · intro _
            obtain ⟨b, hb, hgt'⟩ := ih.mp ⟨e, hrest⟩
            exact ⟨b, by simp [hb], hgt'⟩
          · intro _
            exact ⟨e, rfl⟩
        | ok vs =>
          constructor
          · rintro ⟨e, he⟩
            exact absurd he (fun h => Except.noConfusion h)
          · rintro ⟨b, hb, hgt'⟩
            rcases List.mem_cons.mp hb with rfl | hb'
            · omega
            · obtain ⟨e, he⟩ := ih.mpr ⟨b, hb', hgt'⟩
              rw [hrest] at he
              exact absurd he (fun h => Except.noConfusion h)

/-- Constructing a `LexicographicIterator` with the k-subset arguments
succeeds and stores `subCfg n k`. -/
theorem lexInit_sub (n k : Nat) :
    lexInit (subLimits n k) (subIndexMap k) (subIncrements k) =
      Except.ok (subCfg n k) := by
  have hklen : (subLimits n k).length = k := by
    rw [subLimits, List.length_map, List.length_range]
  unfold lexInit
  rw [hklen]
  rw [storeIndexMap_ok (g := fun (i : Nat) => (i : Int) - 1) (List.range k) ?hall]
  case hall =>
    intro a ha
    have hak : a < k := List.mem_range.mp ha
    have hgd : (subIndexMap k).getD a 0 = (a : Int) - 1 := by
      show ((List.range k).map _).getD a 0 = _
      exact getD_map_range hak
    rw [hgd]
    constructor
    · omega
    · rcases Nat.eq_zero_or_pos a with rfl | hpos
      · norm_num
      · rw [if_neg (by omega)]
  show Except.ok ⟨k, (subLimits n k).map (fun x => x - 1), _, subIncrements k⟩ =
    Except.ok (subCfg n k)
  congr 1
  show (⟨k, _, _, _⟩ : LexCfg) = ⟨k, _, _, _⟩
  congr 1
  rw [subLimits, List.map_map]
  refine List.map_congr_left ?_
  intro a _
  show (n : Int) - k + a + 1 - 1 = (n : Int) - k + a
  ring

/-- The `T` value after entering `rolloverFrom` at `i ≥ 1` under the
k-subset configuration: each processed position follows its
predecessor by exactly one. -/
theorem rolloverFrom_sub_getD (n k : Nat) (T : List Int) {i m : Nat}
    (hT : T.length = k) (hi : 1 ≤ i) (him : i ≤ m) (hm : m < k) :
    (rolloverFrom (subCfg n k) T i).getD m 0 =
      T.getD (i - 1) 0 + ((m - i + 1 : Nat) : Int) := by
  rw [rolloverFrom_unfold]
  rw [if_pos (show i < (subCfg n k).k by rw [subCfg_k]; omega)]
  have hstep : rolloverStep (subCfg n k) T i = T.set i (T.getD (i - 1) 0 + 1) := by
    unfold rolloverStep
    have h1 : (subCfg n k).index_map.getD i 0 = (i : Int) - 1 :=
      subCfg_index_map_getD n k (by omega)
    have h2 : (subCfg n k).increments.getD i 0 = 1 :=
      subCfg_increments_getD n k (by omega)
    have h3 : ((i : Int) - 1).toNat = i - 1 := by omega
    rw [h1, h2, if_neg (by omega), h3]
  rw [hstep]
  rcases Nat.eq_or_lt_of_le him with rfl | hlt
  · rw [rolloverFrom_getD_frozen _ _ _ (Or.inl (by omega)),
      getD_set_self (by omega)]
    congr 1
    omega
  · rw [rolloverFrom_sub_getD n k _ (by simpa using hT) (by omega) (by omega) hm]
    rw [Nat.add_sub_cancel, getD_set_self (by omega)]
    have : ((m - (i + 1) + 1 : Nat) : Int) + 1 = ((m - i + 1 : Nat) : Int) := by
      omega
    omega
termination_by k - i

/-- The initial buffer for the k-subset configuration is the identity
`[0, 1, …, k-1]`. -/
theorem lexInitT_sub (n k : Nat) (hk : 1 ≤ k) :
    lexInitT (subCfg n k) = rangeInt 0 k := by
  refine ext_getD ?_ ?_
  · rw [lexInitT, rolloverFrom_length, rangeInt_length]
    simp [subCfg_k]
  · intro m hm
    rw [lexInitT, rolloverFrom_length] at hm
    simp only [List.length_set, List.length_replicate, subCfg_k] at hm
    rcases Nat.eq_zero_or_pos m with rfl | hpos
    · rw [lexInitT, rolloverFrom_getD_frozen _ _ _ (Or.inl (by omega)),
        getD_set_self (by simpa using hk), rangeInt_getD hm]
      norm_num
    · rw [lexInitT, rolloverFrom_sub_getD n k _ (by simp [subCfg_k]) (le_refl 1)
        hpos (by simpa using hm), rangeInt_getD hm, subCfg_k]
      have h0 : ((List.replicate k (0 : Int)).set 0 0).getD (1 - 1) 0 = 0 :=
        getD_set_self (by simpa using hk)
      rw [h0]
      omega

/-! ## Correctness of the k-subset enumeration -/

/-- A valid k-subset index tuple over `n` items: `k` strictly increasing
indices inside `[0, n)`. -/
def validC (n k : Nat) (T : List Int) : Prop :=
  T.length = k ∧ List.Chain' (· < ·) T ∧ ∀ x ∈ T, 0 ≤ x ∧ x < (n : Int)

theorem validC_upper {n k : Nat} {T : List Int} (h : validC n k T) :
    ∀ m, m < k → T.getD m 0 ≤ (n : Int) - k + m := by
  obtain ⟨hlen, hchain, hmem⟩ := h
  intro m hm
  have hlast : T.getD (k - 1) 0 < (n : Int) := by
    have : T.getD (k - 1) 0 ∈ T :=
      mem_iff_getD.mpr ⟨k - 1, by omega, rfl⟩
    exact (hmem _ this).2
  have hbound := chain_lt_getD_bound hchain (show m ≤ k - 1 by omega)
    (show k - 1 < T.length by omega)
  have hcast : ((k - 1 - m : Nat) : Int) = (k : Int) - 1 - m := by omega
  omega

theorem validC_lower {n k : Nat} {T : List Int} (h : validC n k T) :
    ∀ m, m < k → (m : Int) ≤ T.getD m 0 := by
  obtain ⟨hlen, hchain, hmem⟩ := h
  intro m hm
  have h0 : (0 : Int) ≤ T.getD 0 0 := by
    have : T.getD 0 0 ∈ T := mem_iff_getD.mpr ⟨0, by omega, rfl⟩
    exact (hmem _ this).1
  have hbound := chain_lt_getD_bound hchain (Nat.zero_le m) (show m < T.length by omega)
  omega

/-- Exhaustion test of the subset iterator: `lexStep` returns `none`
exactly when every position sits at its stored limit. -/
theorem lexStep_sub_none {n k : Nat} {T : List Int} :
    lexStep (subCfg n k) T = none ↔
      ∀ g, g < k → (n : Int) - k + g ≤ T.getD g 0 := by
  unfold lexStep
  constructor
  · intro h g hg
    cases hfind : findLast (fun g => decide (T.getD g 0 < (subCfg n k).limits.getD g 0))
        (subCfg n k).k with
    | some g' => rw [hfind] at h; exact absurd h (by simp)
    | none =>
      have := findLast_eq_none.mp hfind g (by rwa [subCfg_k])
      rw [subCfg_limits_getD n k hg] at this
      simpa using this
  · intro hall
    have hfind : findLast (fun g => decide (T.getD g 0 < (subCfg n k).limits.getD g 0))
        (subCfg n k).k = none := by
      refine findLast_eq_none.mpr ?_
      intro m hm
      rw [subCfg_k] at hm
      rw [subCfg_limits_getD n k hm]
      simpa using hall m hm
    rw [hfind]

/-- Successful step of the subset iterator: the result increments the
right-most non-maximal position and continues consecutively after it. -/
theorem lexStep_sub_some {n k : Nat} {T R : List Int} (hT : T.length = k)
    (h : lexStep (subCfg n k) T = some R) :
    ∃ g, g < k ∧ T.getD g 0 < (n : Int) - k + g ∧
      (∀ m, g < m → m < k → (n : Int) - k + m ≤ T.getD m 0) ∧
      R.length = k ∧
      (∀ m, m < g → R.getD m 0 = T.getD m 0) ∧
      R.getD g 0 = T.getD g 0 + 1 ∧
      (∀ m, g < m → m < k → R.getD m 0 = T.getD g 0 + 1 + ((m - g : Nat) : Int)) := by
  unfold lexStep at h
  cases hfind : findLast (fun g => decide (T.getD g 0 < (subCfg n k).limits.getD g 0))
      (subCfg n k).k with
  | none => rw [hfind] at h; exact absurd h (by simp)
  | some g =>
    rw [hfind] at h
    obtain ⟨hgk, hPg, hmax⟩ := findLast_eq_some.mp hfind
    rw [subCfg_k] at hgk
    rw [subCfg_limits_getD n k hgk] at hPg
    have hR : R = rolloverFrom (subCfg n k) (T.set g (T.getD g 0 + 1)) (g + 1) := by
      have := h
      simp only [Option.some_inj] at this
      exact this.symm
    have hlen1 : (T.set g (T.getD g 0 + 1)).length = k := by simpa using hT
    refine ⟨g, hgk, by simpa using hPg, ?_, ?_, ?_, ?_, ?_⟩
    · intro m hgm hmk
      have := hmax m hgm (by rwa [subCfg_k])
      rw [subCfg_limits_getD n k hmk] at this
      simpa using this
    · rw [hR, rolloverFrom_length]
      exact hlen1
    · intro m hmg
      rw [hR, rolloverFrom_getD_frozen _ _ _ (Or.inl (by omega)),
        getD_set_other (by omega)]
    · rw [hR, rolloverFrom_getD_frozen _ _ _ (Or.inl (by omega)),
        getD_set_self (by omega)]
    · intro m hgm hmk
      rw [hR, rolloverFrom_sub_getD n k _ hlen1 (by omega) (by omega) hmk,
        Nat.add_sub_cancel, getD_set_self (by omega)]
      have : ((m - (g + 1) + 1 : Nat) : Int) = ((m - g : Nat) : Int) := by omega
      omega

/-- Exhaustion only happens at the lexicographically largest valid
subset tuple. -/
theorem subStep_none_max {n k : Nat} (T : List Int) (hvT : validC n k T)
    (hnone : lexStep (subCfg n k) T = none) :
    ∀ u, validC n k u → ¬ lexLt T u := by
  intro u hvu hlt
  have hTlen : T.length = k := hvT.1
  have hulen : u.length = k := hvu.1
  obtain ⟨t, ht, _, htd⟩ := lexLt_first_diff (by omega) hlt
  rw [hTlen] at ht
  have h1 := (lexStep_sub_none (T := T)).mp hnone t ht
  have h2 := validC_upper hvu t ht
  omega

/-- A successful step lands on a valid tuple, strictly above the current
one, with no valid tuple strictly between. -/
theorem subStep_some_succ {n k : Nat} (T R : List Int) (hvT : validC n k T)
    (hstep : lexStep (subCfg n k) T = some R) :
    validC n k R ∧ lexLt T R ∧
      ∀ u, validC n k u → lexLt T u → ¬ lexLt u R := by
  have hTlen : T.length = k := hvT.1
  obtain ⟨g, hgk, hPg, hmax, hRlen, hRlt, hRg, hRgt⟩ := lexStep_sub_some hTlen hstep
  have hTbounds : ∀ m, m < k → 0 ≤ T.getD m 0 ∧ T.getD m 0 < (n : Int) := by
    intro m hm
    exact hvT.2.2 _ (mem_iff_getD.mpr ⟨m, by omega, rfl⟩)
  have hTchain := chain'_iff_getD.mp hvT.2.1
  have hRchain : List.Chain' (· < ·) R := by
    refine chain'_iff_getD.mpr ?_
    intro m hm
    rw [hRlen] at hm
    rcases Nat.lt_trichotomy (m + 1) g with h1 | rfl | h1
    · rw [hRlt m (by omega), hRlt (m + 1) h1]
      exact hTchain m (by omega)
    · rw [hRlt m (by omega), hRg]
      have := hTchain m (by omega)
      omega
    · rcases Nat.eq_or_lt_of_le (Nat.succ_le_of_lt h1) with h2 | h2
      · -- m = g
        have hmg : m = g := by omega
        subst hmg
        rw [hRg, hRgt (m + 1) (by omega) (by omega)]
        have : ((m + 1 - m : Nat) : Int) = 1 := by omega
        omega
      · -- m > g
        rw [hRgt m (by omega) (by omega), hRgt (m + 1) (by omega) (by omega)]
        have : ((m + 1 - g : Nat) : Int) = ((m - g : Nat) : Int) + 1 := by omega
        omega
  have hRvalid : validC n k R := by
    refine ⟨hRlen, hRchain, ?_⟩
    intro x hx
    obtain ⟨m, hm, rfl⟩ := mem_iff_getD.mp hx
    rw [hRlen] at hm
    rcases Nat.lt_trichotomy m g with h1 | rfl | h1
    · rw [hRlt m h1]
      exact hTbounds m (by omega)
    · rw [hRg]
      have := (hTbounds m (by omega)).1
      omega
    · rw [hRgt m h1 hm]
      have := (hTbounds g (by omega)).1
      omega
  have hTR : lexLt T R := by
    refine lexLt_of_getD (by omega) (t := g) (by omega) ?_ ?_
    · exact take_eq_take_of_getD (by omega) (by omega)
        (fun m hm => (hRlt m hm).symm)
    · rw [hRg]; omega
  refine ⟨hRvalid, hTR, ?_⟩
  intro u hvu hTu huR
  have hulen : u.length = k := hvu.1
  obtain ⟨t, ht, htake, htd⟩ := lexLt_first_diff (by omega) hTu
  rw [hTlen] at ht
  obtain ⟨s, hs, hstake, hsd⟩ := lexLt_first_diff (by omega) huR
  rw [hulen] at hs
  have htg : t ≤ g := by
    by_contra hc
    push_neg at hc
    have h1 := hmax t hc ht
    have h2 := validC_upper hvu t ht
    omega
  rcases Nat.lt_trichotomy s g with hsg | rfl | hsg
  · -- s < g : u and R agree with T below g, contradiction around s and t
    rcases Nat.lt_trichotomy s t with hst | rfl | hst
    · have h1 : T.getD s 0 = u.getD s 0 := getD_of_take_eq htake hst
      have h2 : R.getD s 0 = T.getD s 0 := hRlt s hsg
      omega
    · have h2 : R.getD s 0 = T.getD s 0 := hRlt s hsg
      omega
    · have h1 : u.getD t 0 = R.getD t 0 := getD_of_take_eq hstake hst
      have h2 : R.getD t 0 = T.getD t 0 := hRlt t (by omega)
      omega
  · -- s = g
    rw [hRg] at hsd
    rcases Nat.eq_or_lt_of_le htg with rfl | htl
    · omega
    · have h1 : u.getD t 0 = R.getD t 0 := getD_of_take_eq hstake htl
      have h2 : R.getD t 0 = T.getD t 0 := hRlt t htl
      omega
  · -- s > g : u agrees with R at g, then grows too fast
    have h1 : u.getD g 0 = R.getD g 0 := getD_of_take_eq hstake hsg
    have h2 := chain_lt_getD_bound hvu.2.1 (show g ≤ s by omega)
      (show s < u.length by omega)
    rw [hRgt s hsg hs] at hsd
    rw [hRg] at h1
    omega

/-! ## The reference list of all k-subsets, sorted lexicographically -/

/-- All k-element sublists of `[0, …, n-1]` (Mathlib's `sublistsLen`). -/
def subsetsAll (n k : Nat) : List (List Int) := List.sublistsLen k (rangeInt 0 n)

/-- The same list sorted by `lexLe`. -/
def subsetsSorted (n k : Nat) : List (List Int) :=
  List.insertionSort lexLe (subsetsAll n k)

theorem rangeInt_pairwise (lo : Int) (n : Nat) :
    List.Pairwise (· < ·) (rangeInt lo n) := by
  rw [rangeInt]
  refine (List.pairwise_map).mpr ?_
  exact (List.pairwise_lt_range n).imp (fun h => by omega)

theorem rangeInt_nodup (lo : Int) (n : Nat) : (rangeInt lo n).Nodup :=
  (rangeInt_pairwise lo n).imp (fun h => by omega)

theorem mem_rangeInt {x : Int} {lo : Int} {n : Nat} :
    x ∈ rangeInt lo n ↔ lo ≤ x ∧ x < lo + n := by
  rw [rangeInt]
  simp only [List.mem_map, List.mem_range]
  constructor
  · rintro ⟨m, hm, rfl⟩
    omega
  · rintro ⟨h1, h2⟩
    exact ⟨(x - lo).toNat, by omega, by omega⟩

theorem rangeInt_succ (lo : Int) (n : Nat) :
    rangeInt lo (n + 1) = lo :: rangeInt (lo + 1) n := by
  rw [rangeInt, List.range_succ_eq_map, List.map_cons, List.map_map, rangeInt]
  simp only [List.cons.injEq]
  constructor
  · norm_num
  · refine List.map_congr_left ?_
    intro a _
    show lo + ((a + 1 : Nat) : Int) = lo + 1 + (a : Int)
    push_cast
    ring

/-- Sublists of `[lo, …, lo+n-1]` are exactly the strictly increasing
lists with entries in `[lo, lo+n)`. -/
theorem sublist_rangeInt_iff : ∀ {n : Nat} {lo : Int} {t : List Int},
    t.Sublist (rangeInt lo n) ↔
      List.Chain' (· < ·) t ∧ ∀ x ∈ t, lo ≤ x ∧ x < lo + n := by
  intro n
  induction n with
  | zero =>
    intro lo t
    constructor
    · intro h
      have : t = [] := List.sublist_nil.mp (by simpa [rangeInt] using h)
      subst this
      simp
    · rintro ⟨_, hb⟩
      cases t with
      | nil => simp [rangeInt]
      | cons x xs =>
        have := hb x (by simp)
        omega
  | succ n ih =>
    intro lo t
    rw [rangeInt_succ]
    constructor
    · intro h
      have hpw : List.Pairwise (· < ·) t :=
        List.Pairwise.sublist h (by rw [← rangeInt_succ]; exact rangeInt_pairwise lo (n + 1))
      refine ⟨List.chain'_iff_pairwise.mpr hpw, ?_⟩
      intro x hx
      have : x ∈ rangeInt lo (n + 1) := by
        rw [rangeInt_succ]
        exact h.subset hx
      have := mem_rangeInt.mp this
      omega
    · rintro ⟨hchain, hb⟩
      cases t with
      | nil => exact List.nil_sublist _
      | cons x xs =>
        have hx := hb x (by simp)
        have hxs_gt : ∀ y ∈ xs, x < y := by
          intro y hy
          exact List.rel_of_pairwise_cons (List.chain'_iff_pairwise.mp hchain) hy
        rcases eq_or_lt_of_le hx.1 with rfl | hlt
        · refine List.cons_sublist_cons.mpr ?_
          refine (@ih (lo + 1) xs).mpr ⟨hchain.tail, ?_⟩
          intro y hy
          have h1 := hxs_gt y hy
          have h2 := hb y (by simp [hy])
          constructor <;> omega
        · refine List.sublist_cons_of_sublist lo ?_
          refine (@ih (lo + 1) (x :: xs)).mpr ⟨hchain, ?_⟩
          intro y hy
          have h2 := hb y hy
          rcases List.mem_cons.mp hy with rfl | hy'
          · constructor <;> omega
          · have := hxs_gt y hy'
            constructor <;> omega

theorem mem_subsetsAll_iff_validC {n k : Nat} {t : List Int} :
    t ∈ subsetsAll n k ↔ validC n k t := by
  rw [subsetsAll, List.mem_sublistsLen, sublist_rangeInt_iff]
  unfold validC
  constructor
  · rintro ⟨⟨hc, hb⟩, hl⟩
    exact ⟨hl, hc, fun x hx => by have := hb x hx; omega⟩
  · rintro ⟨hl, hc, hb⟩
    exact ⟨⟨hc, fun x hx => by have := hb x hx; omega⟩, hl⟩

theorem subsetsAll_length (n k : Nat) :
    (subsetsAll n k).length = n.choose k := by
  rw [subsetsAll, List.length_sublistsLen, rangeInt_length]

theorem subsetsAll_nodup (n k : Nat) : (subsetsAll n k).Nodup := by
  refine (List.sublistsLen_sublist_sublists' k (rangeInt 0 n)).nodup ?_
  exact List.nodup_sublists'.mpr (rangeInt_nodup 0 n)

theorem subsetsSorted_perm (n k : Nat) :
    (subsetsSorted n k).Perm (subsetsAll n k) :=
  List.perm_insertionSort lexLe (subsetsAll n k)

theorem subsetsSorted_pairwise (n k : Nat) :
    (subsetsSorted n k).Pairwise lexLt := by
  have hsorted : (subsetsSorted n k).Pairwise lexLe :=
    List.sorted_insertionSort lexLe (subsetsAll n k)
  have hnodup : (subsetsSorted n k).Nodup :=
    ((subsetsSorted_perm n k).symm).nodup (subsetsAll_nodup n k)
  refine (hsorted.and hnodup).imp ?_
  rintro a b ⟨hle, hne⟩
  rcases lexLt_trichotomy a b with h | rfl | h
  · exact h
  · exact absurd rfl hne
  · exact absurd h hle

/-- A sorted list with a member below all others starts with it. -/
theorem sorted_head_eq {L : List (List Int)} {x : List Int}
    (hs : L.Pairwise lexLt) (hx : x ∈ L) (hmin : ∀ t, t ∈ L → ¬ lexLt t x) :
    ∃ rest, L = x :: rest := by
  cases L with
  | nil => simp at hx
  | cons y rest =>
    rcases List.mem_cons.mp hx with rfl | hx'
    · exact ⟨rest, rfl⟩
    · have h1 : lexLt y x := List.rel_of_pairwise_cons hs hx'
      exact absurd h1 (hmin y (by simp))

theorem validC_init {n k : Nat} (hkn : k ≤ n) :
    validC n k (rangeInt 0 k) := by
  refine ⟨rangeInt_length 0 k, ?_, ?_⟩
  · exact List.chain'_iff_pairwise.mpr (rangeInt_pairwise 0 k)
  · intro x hx
    have := mem_rangeInt.mp hx
    omega

theorem validC_init_min {n k : Nat} :
    ∀ u, validC n k u → ¬ lexLt u (rangeInt 0 k) := by
  intro u hu hlt
  obtain ⟨t, ht, _, htd⟩ := lexLt_first_diff (by rw [hu.1, rangeInt_length]) hlt
  rw [hu.1] at ht
  rw [rangeInt_getD ht] at htd
  have := validC_lower hu t ht
  omega

/-- The subset iterator, started at its initial buffer, runs through
exactly the sorted list of all k-subsets and then exhausts. -/
theorem subsets_enumeration (n k : Nat) (hk : 1 ≤ k) (hkn : k ≤ n) :
    haltsIn (lexStep (subCfg n k)) (lexInitT (subCfg n k)) (n.choose k - 1) ∧
      ∀ fuel, n.choose k ≤ fuel →
        runStream (lexStep (subCfg n k)) (lexInitT (subCfg n k)) fuel =
          subsetsSorted n k := by
  have hmemiff : ∀ t, t ∈ subsetsSorted n k ↔ validC n k t := by
    intro t
    rw [(subsetsSorted_perm n k).mem_iff, mem_subsetsAll_iff_validC]
  have hinit_mem : rangeInt 0 k ∈ subsetsSorted n k :=
    (hmemiff _).mpr (validC_init hkn)
  obtain ⟨rest, hL⟩ := sorted_head_eq (subsetsSorted_pairwise n k) hinit_mem
    (fun t ht => validC_init_min t ((hmemiff t).mp ht))
  have hlenL : (subsetsSorted n k).length = n.choose k := by
    rw [(subsetsSorted_perm n k).length_eq, subsetsAll_length]
  have hrest : rest.length = n.choose k - 1 := by
    rw [hL] at hlenL
    simp only [List.length_cons] at hlenL
    omega
  have hchoose_pos : 1 ≤ n.choose k := by
    rw [hL] at hlenL
    simp only [List.length_cons] at hlenL
    omega
  have henum := @runStream_eq_of_sorted (lexStep (subCfg n k)) (validC n k)
    (fun t hvt hnone => subStep_none_max t hvt hnone)
    (fun t t' hvt hstep => subStep_some_succ t t' hvt hstep)
    rest (rangeInt 0 k)
    (by rw [← hL]; exact subsetsSorted_pairwise n k)
    (by
      intro t ht
      rw [← hL] at ht
      exact (hmemiff t).mp ht)
    (by
      intro u hu hlt
      have : u ∈ subsetsSorted n k := (hmemiff u).mpr hu
      rw [hL] at this
      rcases List.mem_cons.mp this with rfl | h
      · exact absurd hlt (lexLt_irrefl _)
      · exact h)
  rw [lexInitT_sub n k hk]
  constructor
  · rw [hrest] at henum
    exact henum.1
  · intro fuel hfuel
    rw [henum.2 fuel (by omega), hL]

/-! ## Correctness of the permutation iterator: the reversal loop -/

theorem revSwap_length (l : List Int) (lo hi : Nat) :
    (revSwap l lo hi).length = l.length := by
  rw [revSwap_unfold]
  split
  · rw [revSwap_length]
    simp
  · rfl
termination_by hi - lo

theorem revSwap_getD (l : List Int) (lo hi : Nat) (hhi : hi < l.length) (m : Nat) :
    (revSwap l lo hi).getD m 0 =
      if lo ≤ m ∧ m ≤ hi then l.getD (lo + hi - m) 0 else l.getD m 0 := by
  rw [revSwap_unfold]
  split
  · next hlt =>
    have hlol : lo < l.length := by omega
    have hgd' : ∀ j, ((l.set lo (l.getD hi 0)).set hi (l.getD lo 0)).getD j 0 =
        if j = hi then l.getD lo 0 else if j = lo then l.getD hi 0 else l.getD j 0 := by
      intro j
      by_cases h1 : j = hi
      · subst h1
        rw [if_pos rfl, getD_set_self (by simpa using hhi)]
      · by_cases h2 : j = lo
        · subst h2
          rw [if_neg h1, if_pos rfl, getD_set_other (fun h => h1 h.symm),
            getD_set_self hlol]
        · rw [if_neg h1, if_neg h2, getD_set_other (fun h => h1 h.symm),
            getD_set_other (fun h => h2 h.symm)]
    rw [revSwap_getD _ (lo + 1) (hi - 1) (by simp; omega) m]
    by_cases hin : lo + 1 ≤ m ∧ m ≤ hi - 1
    · rw [if_pos hin, if_pos (by omega)]
      have harith : lo + 1 + (hi - 1) - m = lo + hi - m := by omega
      rw [harith, hgd', if_neg (by omega), if_neg (by omega)]
    · rw [if_neg hin]
      by_cases hm1 : m = lo
      · subst hm1
        rw [hgd', if_neg (by omega), if_pos rfl, if_pos (by omega)]
        have harith : m + hi - m = hi := by omega
        rw [harith]
      · by_cases hm2 : m = hi
        · subst hm2
          rw [hgd', if_pos rfl, if_pos (by omega)]
          have harith : lo + m - m = lo := by omega
          rw [harith]
        · rw [hgd', if_neg hm2, if_neg hm1, if_neg (by omega)]
  · next hge =>
    by_cases hin : lo ≤ m ∧ m ≤ hi
    · rw [if_pos hin]
      have hmlo : m = lo := by omega
      have harith : lo + hi - m = m := by omega
      rw [harith]
    · rw [if_neg hin]
termination_by hi - lo

/-- The reversal loop reverses the segment `[lo, hi]` in place. -/
theorem revSwap_eq_reverse_segment (lo hi : Nat) (l : List Int)
    (hlo : lo ≤ hi + 1) (hhi : hi < l.length) :
    revSwap l lo hi =
      l.take lo ++ ((l.drop lo).take (hi + 1 - lo)).reverse ++ l.drop (hi + 1) := by
  have hseg_len : ((l.drop lo).take (hi + 1 - lo)).length = hi + 1 - lo := by
    simp only [List.length_take, List.length_drop]
    omega
  refine ext_getD ?_ ?_
  · rw [revSwap_length]
    simp only [List.length_append, List.length_reverse, hseg_len, List.length_take,
      List.length_drop]
    omega
  · intro m hm
    rw [revSwap_length] at hm
    rw [revSwap_getD l lo hi hhi m]
    have hgd_drop : ∀ (i j : Nat), (l.drop i).getD j 0 = l.getD (i + j) 0 := by
      intro i j
      rw [List.getD_eq_getElem?_getD, List.getD_eq_getElem?_getD, List.getElem?_drop]
    have htklen : (l.take lo).length = lo := by simp; omega
    by_cases h1 : m < lo
    · rw [if_neg (by omega), getD_append_left (by simp; omega),
        getD_append_left (by omega), getD_take h1]
    · by_cases h2 : m ≤ hi
      · rw [if_pos (by omega)]
        have hmlt : m < (l.take lo ++ ((l.drop lo).take (hi + 1 - lo)).reverse).length := by
          simp only [List.length_append, List.length_reverse, hseg_len, htklen]
          omega
        rw [getD_append_left hmlt]
        rw [getD_append_sub (by omega), htklen]
        have hrev : (((l.drop lo).take (hi + 1 - lo)).reverse).getD (m - lo) 0 =
            ((l.drop lo).take (hi + 1 - lo)).getD (hi - m) 0 := by
          rw [List.getD_eq_getElem?_getD, List.getD_eq_getElem?_getD,
            List.getElem?_reverse (by rw [hseg_len]; omega),
            hseg_len]
          have harith : hi + 1 - lo - 1 - (m - lo) = hi - m := by omega
          rw [harith]
        rw [hrev, getD_take (by omega), hgd_drop]
        have harith : lo + (hi - m) = lo + hi - m := by omega
        rw [harith]
      · rw [if_neg (by omega)]
        have hmge : (l.take lo ++ ((l.drop lo).take (hi + 1 - lo)).reverse).length ≤ m := by
          simp only [List.length_append, List.length_reverse, hseg_len, htklen]
          omega
        rw [getD_append_sub hmge]
        rw [hgd_drop]
        have harith : hi + 1 +
            (m - (l.take lo ++ ((l.drop lo).take (hi + 1 - lo)).reverse).length) = m := by
          simp only [List.length_append, List.length_reverse, hseg_len, htklen]
          omega
        rw [harith]

theorem getD_drop (l : List Int) (i j : Nat) :
    (l.drop i).getD j 0 = l.getD (i + j) 0 := by
  rw [List.getD_eq_getElem?_getD, List.getD_eq_getElem?_getD, List.getElem?_drop]

theorem nodup_getD_ne {p : List Int} (hnd : p.Nodup) {i j : Nat}
    (hi : i < p.length) (hj : j < p.length) (hne : i ≠ j) :
    p.getD i 0 ≠ p.getD j 0 := by
  rw [List.getD_eq_getElem _ _ hi, List.getD_eq_getElem _ _ hj]
  intro he
  exact hne ((List.Nodup.getElem_inj_iff hnd).mp he)

theorem perm_drop_of_take_eq {u p : List Int} (hperm : u.Perm p) {t : Nat}
    (h : u.take t = p.take t) : (u.drop t).Perm (p.drop t) := by
  refine (List.perm_append_left_iff (p.take t)).mp ?_
  have h1 : p.take t ++ u.drop t = u := by rw [← h, List.take_append_drop]
  have h2 : p.take t ++ p.drop t = p := List.take_append_drop t p
  rw [h1, h2]
  exact hperm

/-- A tail that is strictly descending step by step is strictly
descending across any gap. -/
theorem desc_strict {p : List Int} {i : Nat}
    (hsuffix : ∀ m, i < m → m + 1 < p.length → p.getD (m + 1) 0 < p.getD m 0) :
    ∀ m m', i < m → m < m' → m' < p.length → p.getD m' 0 < p.getD m 0 := by
  intro m m' him hmm' hm'
  induction m' with
  | zero => omega
  | succ m' ih =>
    rcases Nat.lt_succ_iff_lt_or_eq.mp hmm' with h | rfl
    · have h1 := hsuffix m' (by omega) (by omega)
      have h2 := ih h (by omega)
      omega
    · exact hsuffix m (by omega) (by omega)

/-- Anatomy of a successful `permStep`: the pivot `i`, the swap partner
`j`, the ordering facts the two scans guarantee, and the structural shape
of the produced list. -/
theorem permStep_anatomy {p q : List Int} (hnd : p.Nodup)
    (hstep : permStep p = some q) :
    ∃ i j : Nat,
      i + 1 < p.length ∧ i < j ∧ j < p.length ∧
      p.getD i 0 < p.getD j 0 ∧
      (∀ m, i < m → m + 1 < p.length → p.getD (m + 1) 0 < p.getD m 0) ∧
      (∀ m, j < m → m < p.length → p.getD m 0 < p.getD i 0) ∧
      (∀ m, i < m → m < j → p.getD j 0 < p.getD m 0) ∧
      q = p.take i ++ p.getD j 0 ::
        ((p.drop (i + 1)).set (j - i - 1) (p.getD i 0)).reverse := by
  unfold permStep at hstep
  cases hfind : findLast (fun i => decide (p.getD i 0 ≤ p.getD (i + 1) 0))
      (p.length - 1) with
  | none => rw [hfind] at hstep; exact absurd hstep (by simp)
  | some i =>
    rw [hfind] at hstep
    dsimp only at hstep
    obtain ⟨hik, hPi, hmax⟩ := findLast_eq_some.mp hfind
    have hn2 : i + 1 < p.length := by omega
    have hPi' : p.getD i 0 ≤ p.getD (i + 1) 0 := by simpa using hPi
    have hsuffix : ∀ m, i < m → m + 1 < p.length → p.getD (m + 1) 0 < p.getD m 0 := by
      intro m him hm
      have := hmax m him (by omega)
      simp only [decide_eq_true_eq] at this
      omega
    obtain ⟨j, hj⟩ := findLast_isSome (P := fun j => decide (p.getD i 0 ≤ p.getD j 0))
      hn2 (by simpa using hPi')
    rw [hj] at hstep
    obtain ⟨hjn, hPj, hjmax⟩ := findLast_eq_some.mp hj
    have hPj' : p.getD i 0 ≤ p.getD j 0 := by simpa using hPj
    have hjgt : ∀ m, j < m → m < p.length → p.getD m 0 < p.getD i 0 := by
      intro m hjm hm
      have := hjmax m hjm hm
      simp only [decide_eq_true_eq] at this
      omega
    have hij : i < j := by
      by_contra hc
      push_neg at hc
      have := hjgt (i + 1) (by omega) hn2
      omega
    have hib : p.getD i 0 < p.getD j 0 :=
      lt_of_le_of_ne hPj' (nodup_getD_ne hnd (by omega) hjn (by omega))
    have hbetween : ∀ m, i < m → m < j → p.getD j 0 < p.getD m 0 := by
      intro m him hmj
      exact desc_strict hsuffix m j him hmj hjn
    refine ⟨i, j, hn2, hij, hjn, hib, hsuffix, hjgt, hbetween, ?_⟩
    simp only [Option.getD_some, Option.some_inj] at hstep
    subst hstep
    have hset1 : p.set i (p.getD j 0) =
        p.take i ++ p.getD j 0 :: p.drop (i + 1) :=
      set_eq_segments (by omega)
    have hset2 : (p.set i (p.getD j 0)).set j (p.getD i 0) =
        p.take i ++ p.getD j 0 :: (p.drop (i + 1)).set (j - i - 1) (p.getD i 0) := by
      rw [hset1, List.set_append]
      have hlen : (p.take i).length = i := by simp; omega
      rw [if_neg (by rw [hlen]; omega)]
      congr 1
      rw [hlen]
      have : j - i = (j - i - 1) + 1 := by omega
      rw [this]
      rfl
    rw [hset2]
    have hlenmid : (p.take i ++ p.getD j 0 ::
        (p.drop (i + 1)).set (j - i - 1) (p.getD i 0)).length = p.length := by
      simp only [List.length_append, List.length_cons, List.length_set,
        List.length_take, List.length_drop]
      omega
    rw [revSwap_eq_reverse_segment (i + 1) (p.length - 1) _ (by omega)
      (by rw [hlenmid]; omega)]
    have hfront : (p.take i ++ p.getD j 0 ::
        (p.drop (i + 1)).set (j - i - 1) (p.getD i 0)) =
        (p.take i ++ [p.getD j 0]) ++ (p.drop (i + 1)).set (j - i - 1) (p.getD i 0) := by
      simp
    rw [hfront]
    have hfrontlen : (p.take i ++ [p.getD j 0]).length = i + 1 := by
      simp; omega
    have htake : ((p.take i ++ [p.getD j 0]) ++
        (p.drop (i + 1)).set (j - i - 1) (p.getD i 0)).take (i + 1) =
        p.take i ++ [p.getD j 0] := by
      rw [← hfrontlen, List.take_left]
    have hdrop : ((p.take i ++ [p.getD j 0]) ++
        (p.drop (i + 1)).set (j - i - 1) (p.getD i 0)).drop (i + 1) =
        (p.drop (i + 1)).set (j - i - 1) (p.getD i 0) := by
      rw [← hfrontlen, List.drop_left]
    have hsetlen : ((p.drop (i + 1)).set (j - i - 1) (p.getD i 0)).length =
        p.length - i - 1 := by
      simp only [List.length_set, List.length_drop]
      omega
    rw [htake, hdrop]
    have harith : p.length - 1 + 1 - (i + 1) = p.length - i - 1 := by omega
    rw [harith]
    have htakeall : ((p.drop (i + 1)).set (j - i - 1) (p.getD i 0)).take
        (p.length - i - 1) = (p.drop (i + 1)).set (j - i - 1) (p.getD i 0) := by
      rw [← hsetlen, List.take_length]
    have hdropall : ((p.take i ++ [p.getD j 0]) ++
        (p.drop (i + 1)).set (j - i - 1) (p.getD i 0)).drop (p.length - 1 + 1) = [] := by
      have hlen2 : ((p.take i ++ [p.getD j 0]) ++
          (p.drop (i + 1)).set (j - i - 1) (p.getD i 0)).length = p.length := by
        simp only [List.length_append, List.length_set, List.length_take,
          List.length_cons, List.length_nil, List.length_drop]
        omega
      have harith2 : p.length - 1 + 1 = p.length := by omega
      rw [harith2, ← hlen2, List.drop_length]
    rw [htakeall, hdropall, List.append_nil]
    simp

/-- Exhaustion of the permutation iterator only happens at the
lexicographically largest arrangement. -/
theorem permStep_none_max {p : List Int} (hstep : permStep p = none) :
    ∀ u, u.Perm p → ¬ lexLt p u := by
  unfold permStep at hstep
  cases hfind : findLast (fun i => decide (p.getD i 0 ≤ p.getD (i + 1) 0))
      (p.length - 1) with
  | some i => rw [hfind] at hstep; exact absurd hstep (by simp)
  | none =>
    have hdesc := findLast_eq_none.mp hfind
    have hchain : List.Chain' (· > ·) p := by
      refine chain'_iff_getD.mpr ?_
      intro m hm
      have := hdesc m (by omega)
      simp only [decide_eq_true_eq] at this
      omega
    intro u hu
    exact not_lexLt_of_sorted_max hchain hu

/-- A successful `permStep` lands on a rearrangement of the same values,
strictly above the current one, with no rearrangement strictly between. -/
theorem permStep_some_succ {p q : List Int} (hnd : p.Nodup)
    (hstep : permStep p = some q) :
    q.Perm p ∧ lexLt p q ∧ ∀ u, u.Perm p → lexLt p u → ¬ lexLt u q := by
  obtain ⟨i, j, hn2, hij, hjn, hib, hsuffix, hjgt, hbetween, hq⟩ :=
    permStep_anatomy hnd hstep
  have hBlen : (p.drop (i + 1)).length = p.length - i - 1 := by
    simp only [List.length_drop]
    omega
  have hjb : j - i - 1 < (p.drop (i + 1)).length := by rw [hBlen]; omega
  have hB'len : ((p.drop (i + 1)).set (j - i - 1) (p.getD i 0)).length =
      p.length - i - 1 := by simp [hBlen]
  have hAlen : (p.take i).length = i := by simp; omega
  have hqlen : q.length = p.length := by
    rw [hq]
    simp only [List.length_append, List.length_cons, List.length_reverse, hB'len, hAlen]
    omega
  have hpdecomp : p = p.take i ++ p.getD i 0 :: p.drop (i + 1) := by
    conv_lhs => rw [← List.take_append_drop i p]
    rw [drop_eq_getD_cons (show i < p.length by omega)]
  have hBgetD : ∀ m, (p.drop (i + 1)).getD m 0 = p.getD (i + 1 + m) 0 :=
    fun m => getD_drop p (i + 1) m
  have hBjb : (p.drop (i + 1)).getD (j - i - 1) 0 = p.getD j 0 := by
    rw [hBgetD]
    have harith : i + 1 + (j - i - 1) = j := by omega
    rw [harith]
  have hB'getD : ∀ m, ((p.drop (i + 1)).set (j - i - 1) (p.getD i 0)).getD m 0 =
      if m = j - i - 1 then p.getD i 0 else (p.drop (i + 1)).getD m 0 := by
    intro m
    by_cases hm : m = j - i - 1
    · subst hm
      rw [if_pos rfl, getD_set_self hjb]
    · rw [if_neg hm, getD_set_other (fun h => hm h.symm)]
  have hB'chain : List.Chain' (· > ·) ((p.drop (i + 1)).set (j - i - 1) (p.getD i 0)) := by
    refine chain'_iff_getD.mpr ?_
    intro m hm
    rw [hB'len] at hm
    rw [hB'getD m, hB'getD (m + 1)]
    by_cases h1 : m + 1 = j - i - 1
    · rw [if_pos h1, if_neg (by omega), hBgetD]
      have harith : i + 1 + m = j - 1 := by omega
      rw [harith]
      have hd1 : p.getD j 0 < p.getD (j - 1) 0 := by
        have := hsuffix (j - 1) (by omega) (by omega)
        have harith2 : j - 1 + 1 = j := by omega
        rwa [harith2] at this
      omega
    · by_cases h2 : m = j - i - 1
      · rw [if_pos h2, if_neg h1, hBgetD]
        have harith : i + 1 + (m + 1) = j + 1 := by omega
        rw [harith]
        exact hjgt (j + 1) (by omega) (by omega)
      · rw [if_neg h2, if_neg h1, hBgetD, hBgetD]
        have := hsuffix (i + 1 + m) (by omega) (by omega)
        have harith : i + 1 + (m + 1) = i + 1 + m + 1 := by omega
        rw [harith]
        exact this
  have hB'rev : List.Chain' (· < ·)
      ((p.drop (i + 1)).set (j - i - 1) (p.getD i 0)).reverse :=
    List.chain'_reverse.mpr hB'chain
  have hBdecomp : p.drop (i + 1) =
      (p.drop (i + 1)).take (j - i - 1) ++ p.getD j 0 :: (p.drop (i + 1)).drop (j - i) := by
    conv_lhs => rw [← List.take_append_drop (j - i - 1) (p.drop (i + 1))]
    rw [drop_eq_getD_cons hjb, hBjb]
    have harith : j - i - 1 + 1 = j - i := by omega
    rw [harith]
  have hB'decomp : (p.drop (i + 1)).set (j - i - 1) (p.getD i 0) =
      (p.drop (i + 1)).take (j - i - 1) ++ p.getD i 0 :: (p.drop (i + 1)).drop (j - i) := by
    rw [set_eq_segments hjb]
    have harith : j - i - 1 + 1 = j - i := by omega
    rw [harith]
  have hqperm : q.Perm p := by
    have h1 : (p.getD j 0 :: ((p.drop (i + 1)).take (j - i - 1) ++
        p.getD i 0 :: (p.drop (i + 1)).drop (j - i))).Perm
        (p.getD i 0 :: ((p.drop (i + 1)).take (j - i - 1) ++
        p.getD j 0 :: (p.drop (i + 1)).drop (j - i))) := by
      refine List.Perm.trans (List.Perm.cons _ List.perm_middle) ?_
      refine List.Perm.trans (List.Perm.swap _ _ _) ?_
      exact List.Perm.cons _ List.perm_middle.symm
    have h2 : q.Perm (p.take i ++ p.getD j 0 ::
        ((p.drop (i + 1)).set (j - i - 1) (p.getD i 0))) := by
      rw [hq]
      exact List.Perm.append_left _ (List.Perm.cons _ (List.reverse_perm _))
    refine h2.trans ?_
    rw [hB'decomp]
    refine List.Perm.trans (List.Perm.append_left _ h1) ?_
    rw [← hBdecomp, ← hpdecomp]
  have hplt : lexLt p q := by
    have h1 := lexLt_of_head_lt (p.take i) (p.drop (i + 1))
      (((p.drop (i + 1)).set (j - i - 1) (p.getD i 0)).reverse) hib
    rw [← hpdecomp] at h1
    rw [hq]
    exact h1
  have hq_lt : ∀ m, m < i → q.getD m 0 = p.getD m 0 := by
    intro m hm
    rw [hq, getD_append_left (by rw [hAlen]; omega), getD_take hm]
  have hq_i : q.getD i 0 = p.getD j 0 := by
    rw [hq, getD_append_sub (by rw [hAlen]), hAlen]
    have harith : i - i = 0 := by omega
    rw [harith]
    rfl
  have hq_take : q.take i = p.take i :=
    take_eq_take_of_getD (by omega) (by omega) (fun m hm => hq_lt m hm)
  have hq_drop : q.drop (i + 1) =
      ((p.drop (i + 1)).set (j - i - 1) (p.getD i 0)).reverse := by
    have hfront : p.take i ++ p.getD j 0 ::
        ((p.drop (i + 1)).set (j - i - 1) (p.getD i 0)).reverse =
        (p.take i ++ [p.getD j 0]) ++
        ((p.drop (i + 1)).set (j - i - 1) (p.getD i 0)).reverse := by simp
    have hfrontlen : (p.take i ++ [p.getD j 0]).length = i + 1 := by
      simp; omega
    rw [hq, hfront, ← hfrontlen, List.drop_left]
  refine ⟨hqperm, hplt, ?_⟩
  intro u hu hpu hluq
  have hulen : u.length = p.length := hu.length_eq
  obtain ⟨t, ht, htake, htd⟩ := lexLt_first_diff (by omega) hpu
  obtain ⟨s, hs, hstake, hsd⟩ := lexLt_first_diff (show u.length = q.length by omega) hluq
  rcases Nat.lt_trichotomy t i with htlt | hteq | htgt
  · -- the first difference with u sits inside the common prefix of p and q
    have hqu : lexLt q u := by
      refine lexLt_of_getD (by omega) (t := t) (by omega) ?_ ?_
      · refine take_eq_take_of_getD (by omega) (by omega) ?_
        intro m hm
        rw [hq_lt m (by omega)]
        exact getD_of_take_eq htake hm
      · rw [hq_lt t (by omega)]
        exact htd
    exact lexLt_asymm hqu hluq
  · -- t = i : u starts like p and exceeds it exactly at the pivot
    subst hteq
    have hui_gt : p.getD t 0 < u.getD t 0 := htd
    have hdperm_t : (u.drop t).Perm (p.drop t) :=
      perm_drop_of_take_eq hu htake.symm
    have hmem : u.getD t 0 ∈ p.drop t := by
      have h1 : u.getD t 0 ∈ u.drop t := by
        rw [drop_eq_getD_cons (show t < u.length by omega)]
        exact List.mem_cons_self _ _
      exact hdperm_t.mem_iff.mp h1
    rw [drop_eq_getD_cons (show t < p.length by omega)] at hmem
    have humem_B : u.getD t 0 ∈ p.drop (t + 1) := by
      rcases List.mem_cons.mp hmem with he | hmem'
      · omega
      · exact hmem'
    obtain ⟨mB, hmB, hmBval⟩ := mem_iff_getD.mp humem_B
    rw [hBlen] at hmB
    rw [hBgetD] at hmBval
    have hb_le : p.getD j 0 ≤ u.getD t 0 := by
      rcases Nat.lt_trichotomy mB (j - t - 1) with h1 | rfl | h1
      · have := hbetween (t + 1 + mB) (by omega) (by omega)
        omega
      · have harith : t + 1 + (j - t - 1) = j := by omega
        rw [harith] at hmBval
        omega
      · have := hjgt (t + 1 + mB) (by omega) (by omega)
        omega
    rcases eq_or_lt_of_le hb_le with hbeq | hblt
    · -- u matches q at the pivot too: compare the tails
      have htake_i1 : u.take (t + 1) = q.take (t + 1) := by
        rw [take_succ_getD (show t < u.length by omega),
          take_succ_getD (show t < q.length by omega)]
        rw [hq_i, ← hbeq]
        rw [← htake, hq_take]
      have hdlex : lexLt (u.drop (t + 1)) (q.drop (t + 1)) := by
        have h1 : lexLt (u.take (t + 1) ++ u.drop (t + 1))
            (q.take (t + 1) ++ q.drop (t + 1)) := by
          rw [List.take_append_drop, List.take_append_drop]
          exact hluq
        rw [htake_i1] at h1
        exact (lexLt_append_iff _ _ _).mp h1
      have hddperm : (u.drop (t + 1)).Perm (q.drop (t + 1)) :=
        perm_drop_of_take_eq (hu.trans hqperm.symm) htake_i1
      rw [hq_drop] at hdlex hddperm
      exact not_lexLt_of_sorted_min hB'rev hddperm hdlex
    · -- u exceeds q at the pivot
      have hqu : lexLt q u := by
        refine lexLt_of_getD (by omega) (t := t) (by omega) ?_ ?_
        · rw [hq_take, htake]
        · rw [hq_i]
          exact hblt
      exact lexLt_asymm hqu hluq
  · -- t > i : u deviates inside the strictly descending tail of p
    have hchain_dropt : List.Chain' (· > ·) (p.drop t) := by
      refine chain'_iff_getD.mpr ?_
      intro m hm
      simp only [List.length_drop] at hm
      rw [getD_drop, getD_drop]
      have harith : t + (m + 1) = t + m + 1 := by omega
      rw [harith]
      exact hsuffix (t + m) (by omega) (by omega)
    have hdperm : (u.drop t).Perm (p.drop t) :=
      perm_drop_of_take_eq hu htake.symm
    have hdlex : lexLt (p.drop t) (u.drop t) := by
      rw [drop_eq_getD_cons (show t < p.length by omega),
        drop_eq_getD_cons (show t < u.length by omega)]
      exact Or.inl htd
    exact not_lexLt_of_sorted_max hchain_dropt hdperm hdlex

/-! ## The reference list of all permutations, sorted lexicographically -/

/-- All rearrangements of `[0, …, n-1]` (Mathlib's `permutations`). -/
def permsAll (n : Nat) : List (List Int) := (rangeInt 0 n).permutations

/-- The same list sorted by `lexLe`. -/
def permsSorted (n : Nat) : List (List Int) :=
  List.insertionSort lexLe (permsAll n)

theorem mem_permsAll {n : Nat} {t : List Int} :
    t ∈ permsAll n ↔ t.Perm (rangeInt 0 n) := List.mem_permutations

theorem permsAll_length (n : Nat) : (permsAll n).length = n.factorial := by
  rw [permsAll, List.length_permutations, rangeInt_length]

theorem permsAll_nodup (n : Nat) : (permsAll n).Nodup :=
  List.nodup_permutations _ (rangeInt_nodup 0 n)

theorem permsSorted_perm (n : Nat) : (permsSorted n).Perm (permsAll n) :=
  List.perm_insertionSort lexLe (permsAll n)

theorem permsSorted_pairwise (n : Nat) : (permsSorted n).Pairwise lexLt := by
  have hsorted : (permsSorted n).Pairwise lexLe :=
    List.sorted_insertionSort lexLe (permsAll n)
  have hnodup : (permsSorted n).Nodup :=
    ((permsSorted_perm n).symm).nodup (permsAll_nodup n)
  refine (hsorted.and hnodup).imp ?_
  rintro a b ⟨hle, hne⟩
  rcases lexLt_trichotomy a b with h | rfl | h
  · exact h
  · exact absurd rfl hne
  · exact absurd h hle

/-- The permutation iterator, started at the identity, runs through
exactly the sorted list of all permutations and then exhausts. -/
theorem perms_enumeration (n : Nat) :
    haltsIn permStep (rangeInt 0 n) (n.factorial - 1) ∧
      ∀ fuel, n.factorial ≤ fuel →
        runStream permStep (rangeInt 0 n) fuel = permsSorted n := by
  have hmemiff : ∀ t, t ∈ permsSorted n ↔ t.Perm (rangeInt 0 n) := by
    intro t
    rw [(permsSorted_perm n).mem_iff, mem_permsAll]
  have hinit_mem : rangeInt 0 n ∈ permsSorted n :=
    (hmemiff _).mpr (List.Perm.refl _)
  have hinit_chain : List.Chain' (· < ·) (rangeInt 0 n) :=
    List.chain'_iff_pairwise.mpr (rangeInt_pairwise 0 n)
  obtain ⟨rest, hL⟩ := sorted_head_eq (permsSorted_pairwise n) hinit_mem
    (fun t ht => not_lexLt_of_sorted_min hinit_chain ((hmemiff t).mp ht))
  have hlenL : (permsSorted n).length = n.factorial := by
    rw [(permsSorted_perm n).length_eq, permsAll_length]
  have hrest : rest.length = n.factorial - 1 := by
    rw [hL] at hlenL
    simp only [List.length_cons] at hlenL
    omega
  have hfact_pos : 1 ≤ n.factorial := Nat.one_le_iff_ne_zero.mpr n.factorial_ne_zero
  have henum := @runStream_eq_of_sorted permStep (fun t => t.Perm (rangeInt 0 n))
    (by
      intro t hvt hnone u hvu
      exact permStep_none_max hnone u (hvu.trans hvt.symm))
    (by
      intro t t' hvt hstep
      have hnd : t.Nodup := (hvt.symm).nodup (rangeInt_nodup 0 n)
      obtain ⟨hperm, hlt, hmin⟩ := permStep_some_succ hnd hstep
      exact ⟨hperm.trans hvt, hlt,
        fun u hvu hltu => hmin u (hvu.trans hvt.symm) hltu⟩)
    rest (rangeInt 0 n)
    (by rw [← hL]; exact permsSorted_pairwise n)
    (by
      intro t ht
      rw [← hL] at ht
      exact (hmemiff t).mp ht)
    (by
      intro u hu hlt
      have : u ∈ permsSorted n := (hmemiff u).mpr hu
      rw [hL] at this
      rcases List.mem_cons.mp this with rfl | h
      · exact absurd hlt (lexLt_irrefl _)
      · exact h)
  constructor
  · rw [hrest] at henum
    exact henum.1
  · intro fuel hfuel
    rw [henum.2 fuel (by omega), hL]

/-! ## Gather success on in-range index tuples -/

theorem tupleGet_eq_getElem? {α : Type} (objs : List α) (n : Int) (h : 0 ≤ n) :
    tupleGet objs n = objs[n.toNat]? := by
  unfold tupleGet
  split
  · next hcond =>
    rw [List.getElem?_eq_getElem hcond.2]
    rfl
  · next hcond =>
    rw [List.getElem?_eq_none (by omega)]

/-- Gathering the identity index tuple returns the item tuple itself. -/
theorem map_to_tuple_range_aux {α : Type} :
    ∀ (post pre : List α),
      map_to_tuple (rangeInt pre.length post.length) (pre ++ post) = some post := by
  intro post
  induction post with
  | nil =>
    intro pre
    rw [show (([] : List α)).length = 0 from rfl]
    rw [show rangeInt pre.length 0 = [] from rfl]
    rfl
  | cons x xs ih =>
    intro pre
    rw [show (x :: xs).length = xs.length + 1 from rfl, rangeInt_succ]
    rw [map_to_tuple, List.mapM_cons]
    have h1 : tupleGet (pre ++ x :: xs) ((pre.length : Int)) = some x := by
      rw [tupleGet_eq_getElem? _ _ (by omega)]
      rw [show ((pre.length : Int)).toNat = pre.length from by omega]
      rw [List.getElem?_append_right (le_refl _), Nat.sub_self]
      simp
    rw [h1]
    have h2 : map_to_tuple (rangeInt ((pre.length : Int) + 1) xs.length)
        (pre ++ x :: xs) = some xs := by
      have hsplit : pre ++ x :: xs = (pre ++ [x]) ++ xs := by simp
      have hlen : ((pre.length : Int) + 1) = (((pre ++ [x]).length : Nat) : Int) := by
        simp
      rw [hsplit, hlen]
      exact ih (pre ++ [x])
    unfold map_to_tuple at h2
    rw [h2]
    rfl

theorem map_to_tuple_range {α : Type} (objs : List α) :
    map_to_tuple (rangeInt 0 objs.length) objs = some objs := by
  have := map_to_tuple_range_aux objs ([] : List α)
  simpa using this

/-- Gathering succeeds whenever every index is in range. -/
theorem map_to_tuple_some_of_bounds {α : Type} (objs : List α) :
    ∀ T : List Int, (∀ x ∈ T, 0 ≤ x ∧ x.toNat < objs.length) →
      ∃ l, map_to_tuple T objs = some l ∧ l.length = T.length := by
  intro T
  induction T with
  | nil => exact fun _ => ⟨[], rfl, rfl⟩
  | cons x xs ih =>
    intro hb
    obtain ⟨hx0, hxl⟩ := hb x (by simp)
    obtain ⟨l, hl, hlen⟩ := ih (fun y hy => hb y (by simp [hy]))
    refine ⟨objs.get ⟨x.toNat, hxl⟩ :: l, ?_, by simp [hlen]⟩
    rw [map_to_tuple, List.mapM_cons]
    have h1 : tupleGet objs x = some (objs.get ⟨x.toNat, hxl⟩) := by
      unfold tupleGet
      rw [dif_pos ⟨hx0, hxl⟩]
    rw [h1, ← map_to_tuple, hl]
    rfl

/-! ## From the successor function to the `__next__` protocol -/

theorem runStream_head_cons (step : List Int → Option (List Int))
    (t : List Int) (fuel : Nat) :
    runStream step t (fuel + 1) = t :: (runStream step t (fuel + 1)).tail := by
  rw [runStream]
  cases step t <;> rfl

theorem permPullN_succ {α : Type} (objs : List α) (s : PermState) (m : Nat) :
    permPullN objs s (m + 1) =
      ((permPull objs s).1 :: (permPullN objs (permPull objs s).2 m).1,
        (permPullN objs (permPull objs s).2 m).2) := rfl

/-- An exhausted `PermutationIterator` keeps signalling `StopIteration`. -/
theorem permPullN_stop {α : Type} (objs : List α) (p : List Int) :
    ∀ m, permPullN objs ⟨p, 2⟩ m = (List.replicate m PullResult.stop, ⟨p, 2⟩) := by
  intro m
  induction m with
  | zero => rfl
  | succ m ih =>
    have hpull : permPull objs ⟨p, 2⟩ = (PullResult.stop, ⟨p, 2⟩) := by
      unfold permPull
      rw [if_neg (by simp), if_pos rfl]
    rw [permPullN_succ, hpull]
    simp only [ih]
    rw [List.replicate_succ]

/-- Pulls on a running iterator emit the gathered successor states until
exhaustion, then `StopIteration` forever. -/
theorem permPullN_flag1 {α : Type} (objs : List α) :
    ∀ (m : Nat) (p : List Int), haltsIn permStep p m → ∀ r,
      (permPullN objs ⟨p, 1⟩ (m + r)).1 =
        (runStream permStep p (m + 1)).tail.map
          (fun T => toRes (map_to_tuple T objs)) ++
        List.replicate r PullResult.stop := by
  intro m
  induction m with
  | zero =>
    intro p hp r
    simp only [haltsIn] at hp
    have htail : (runStream permStep p 1).tail = [] := by
      rw [runStream, hp]
      rfl
    rw [htail]
    simp only [List.map_nil, List.nil_append, Nat.zero_add]
    cases r with
    | zero => rfl
    | succ r =>
      have hpull : permPull objs ⟨p, 1⟩ = (PullResult.stop, ⟨p, 2⟩) := by
        unfold permPull
        rw [if_neg (by simp), if_neg (by simp)]
        unfold perm_next
        rw [hp]
        rfl
      rw [permPullN_succ, hpull]
      simp only [permPullN_stop]
      rw [List.replicate_succ]
  | succ m ih =>
    intro p hp r
    obtain ⟨t', hstep, ht'⟩ := hp
    have hpull : permPull objs ⟨p, 1⟩ =
        (toRes (map_to_tuple t' objs), ⟨t', 1⟩) := by
      unfold permPull
      rw [if_neg (by simp), if_neg (by simp)]
      unfold perm_next
      rw [hstep]
      rfl
    have harith : m + 1 + r = (m + r) + 1 := by omega
    rw [harith, permPullN_succ, hpull]
    simp only
    rw [ih t' ht' r]
    have hrs : runStream permStep p (m + 1 + 1) = p :: runStream permStep t' (m + 1) := by
      rw [runStream, hstep]
    rw [hrs]
    rw [runStream_head_cons permStep t' m]
    simp

/-- The full `__next__` protocol of a `PermutationIterator`: with the
step chain exhausting after `m` steps, `m + 1 + r` pulls return the
`m + 1` gathered index tuples followed by `r` `StopIteration` signals. -/
theorem permPullN_protocol {α : Type} (objs : List α) (m r : Nat)
    (h : haltsIn permStep (rangeInt 0 objs.length) m) :
    (permPullN objs (permInit objs) (m + 1 + r)).1 =
      (runStream permStep (rangeInt 0 objs.length) (m + 1)).map
        (fun T => toRes (map_to_tuple T objs)) ++
      List.replicate r PullResult.stop := by
  by_cases hlen1 : objs.length = 1
  · have hnone : permStep (rangeInt 0 objs.length) = none := by
      rw [hlen1]
      rfl
    have hm0 : m = 0 := by
      cases m with
      | zero => rfl
      | succ m =>
        obtain ⟨t', hstep, _⟩ := h
        rw [hnone] at hstep
        cases hstep
    subst hm0
    have hpull : permPull objs (permInit objs) =
        (toRes (map_to_tuple (rangeInt 0 objs.length) objs),
          ⟨rangeInt 0 objs.length, 2⟩) := by
      unfold permPull permInit
      rw [if_pos rfl, if_pos (by rw [rangeInt_length]; exact hlen1)]
    rw [show 0 + 1 + r = r + 1 from by omega, permPullN_succ, hpull]
    simp only [permPullN_stop]
    rw [runStream, hnone]
    simp [List.replicate_succ]
  · have hpull : permPull objs (permInit objs) =
        (toRes (map_to_tuple (rangeInt 0 objs.length) objs),
          ⟨rangeInt 0 objs.length, 1⟩) := by
      unfold permPull permInit
      rw [if_pos rfl, if_neg (by rw [rangeInt_length]; exact hlen1)]
    rw [show m + 1 + r = (m + r) + 1 from by omega, permPullN_succ, hpull]
    simp only
    rw [permPullN_flag1 objs m _ h r]
    rw [runStream_head_cons permStep _ m]
    simp

theorem lexPullN_succ {α : Type} (objs : List α) (s : LexState) (m : Nat) :
    lexPullN objs s (m + 1) =
      ((lexPull objs s).1 :: (lexPullN objs (lexPull objs s).2 m).1,
        (lexPullN objs (lexPull objs s).2 m).2) := rfl

/-- An exhausted `LexicographicIterator` keeps signalling `StopIteration`. -/
theorem lexPullN_stop {α : Type} (objs : List α) (cfg : LexCfg) (T : List Int) :
    ∀ m, lexPullN objs ⟨cfg, T, 2⟩ m =
      (List.replicate m PullResult.stop, ⟨cfg, T, 2⟩) := by
  intro m
  induction m with
  | zero => rfl
  | succ m ih =>
    have hpull : lexPull objs ⟨cfg, T, 2⟩ = (PullResult.stop, ⟨cfg, T, 2⟩) := by
      unfold lexPull
      rw [if_neg (by simp), if_pos rfl]
    rw [lexPullN_succ, hpull]
    simp only [ih]
    rw [List.replicate_succ]

theorem lexPullN_add {α : Type} (objs : List α) :
    ∀ (a : Nat) (s : LexState) (b : Nat),
      (lexPullN objs s (a + b)).1 =
        (lexPullN objs s a).1 ++ (lexPullN objs (lexPullN objs s a).2 b).1 := by
  intro a
  induction a with
  | zero =>
    intro s b
    rw [Nat.zero_add]
    rfl
  | succ a ih =>
    intro s b
    have harith : a + 1 + b = (a + b) + 1 := by omega
    rw [harith, lexPullN_succ, lexPullN_succ]
    simp only [List.cons_append]
    rw [ih (lexPull objs s).2 b]

/-! ## The claims -/

/-- The C1 property at a given `n`: the run of the permutation iterator
has `n!` index tuples, starts at the identity, is a strict lexicographic
chain, visits exactly the permutations of `[0, …, n-1]`; and on any item
tuple of length `n` the `__next__` protocol emits exactly the gathered
tuples (the first being the items themselves) followed by
`StopIteration` on every later pull. -/
def permIterSpec (n : Nat) : Prop :=
  (runStream permStep (rangeInt 0 n) n.factorial).length = n.factorial ∧
  (runStream permStep (rangeInt 0 n) n.factorial).head? = some (rangeInt 0 n) ∧
  List.Pairwise lexLt (runStream permStep (rangeInt 0 n) n.factorial) ∧
  (∀ t, t ∈ runStream permStep (rangeInt 0 n) n.factorial ↔ t.Perm (rangeInt 0 n)) ∧
  (∀ (α : Type) (items : List α), items.length = n →
    (toRes (map_to_tuple (rangeInt 0 n) items) = PullResult.item items) ∧
    (∀ t, t ∈ runStream permStep (rangeInt 0 n) n.factorial →
      ∃ ts, toRes (map_to_tuple t items) = PullResult.item ts) ∧
    ∀ r, (permPullN items (permInit items) (n.factorial + r)).1 =
      (runStream permStep (rangeInt 0 n) n.factorial).map
        (fun T => toRes (map_to_tuple T items)) ++ List.replicate r PullResult.stop)

/-- C1: for every item sequence of length `n ≥ 1`, `PermutationIterator`
produces exactly `n!` tuples, the first being the identity gathering of
the items, each produced index tuple a permutation of `{0, …, n-1}`, the
index tuples strictly increasing lexicographically with no duplicates,
and every pull after the last tuple signals end-of-sequence. -/
theorem claim_C1_permutation_iterator (n : Nat) (hn : 1 ≤ n) : permIterSpec n := by
  have hfact : 1 ≤ n.factorial := Nat.one_le_iff_ne_zero.mpr n.factorial_ne_zero
  obtain ⟨hhalts, hrun⟩ := perms_enumeration n
  have houts : runStream permStep (rangeInt 0 n) n.factorial = permsSorted n :=
    hrun _ (le_refl _)
  have hmemiff : ∀ t, t ∈ permsSorted n ↔ t.Perm (rangeInt 0 n) := by
    intro t
    rw [(permsSorted_perm n).mem_iff, mem_permsAll]
  refine ⟨?_, ?_, ?_, ?_, ?_⟩
  · rw [houts, (permsSorted_perm n).length_eq, permsAll_length]
  · have harith : n.factorial = (n.factorial - 1) + 1 := by omega
    rw [harith, runStream_head_cons]
    rfl
  · rw [houts]
    exact permsSorted_pairwise n
  · intro t
    rw [houts]
    exact hmemiff t
  · intro α items hlen
    refine ⟨?_, ?_, ?_⟩
    · rw [← hlen, map_to_tuple_range]
      rfl
    · intro t ht
      rw [houts] at ht
      have hperm : t.Perm (rangeInt 0 n) := (hmemiff t).mp ht
      have hbounds : ∀ x ∈ t, 0 ≤ x ∧ x.toNat < items.length := by
        intro x hx
        have hxr : x ∈ rangeInt 0 n := hperm.mem_iff.mp hx
        have := mem_rangeInt.mp hxr
        constructor
        · omega
        · rw [hlen]; omega
      obtain ⟨l, hl, _⟩ := map_to_tuple_some_of_bounds items t hbounds
      exact ⟨l, by rw [hl]; rfl⟩
    · intro r
      have hhalts' : haltsIn permStep (rangeInt 0 items.length) (n.factorial - 1) := by
        rw [hlen]
        exact hhalts
      have h := permPullN_protocol items (n.factorial - 1) r hhalts'
      rw [hlen] at h
      have ha1 : n.factorial - 1 + 1 + r = n.factorial + r := by omega
      have ha2 : n.factorial - 1 + 1 = n.factorial := by omega
      rw [ha1, ha2] at h
      exact h

/-- Witness for C1 at `n = 2`. -/
theorem claim_C1_witness : 1 ≤ 2 ∧ permIterSpec 2 :=
  ⟨by decide, claim_C1_permutation_iterator 2 (by decide)⟩

/-- The C2 property at a given `n`, `k`: constructing with the k-subset
arguments succeeds and stores `subCfg n k`, and the run of the resulting
iterator is a strict lexicographic chain of exactly `Nat.choose n k`
index tuples, whose members are exactly the strictly increasing
`k`-tuples over `[0, n)`; more fuel adds nothing. -/
def subsetIterSpec (n k : Nat) : Prop :=
  lexInit (subLimits n k) (subIndexMap k) (subIncrements k) = Except.ok (subCfg n k) ∧
  (runStream (lexStep (subCfg n k)) (lexInitT (subCfg n k)) (n.choose k)).length =
    n.choose k ∧
  List.Pairwise lexLt
    (runStream (lexStep (subCfg n k)) (lexInitT (subCfg n k)) (n.choose k)) ∧
  (∀ t, t ∈ runStream (lexStep (subCfg n k)) (lexInitT (subCfg n k)) (n.choose k) ↔
    (t.length = k ∧ List.Chain' (· < ·) t ∧ ∀ x ∈ t, 0 ≤ x ∧ x < (n : Int))) ∧
  (∀ fuel, n.choose k ≤ fuel →
    runStream (lexStep (subCfg n k)) (lexInitT (subCfg n k)) fuel =
      runStream (lexStep (subCfg n k)) (lexInitT (subCfg n k)) (n.choose k))

/-- C2: for every `n ≥ k ≥ 1`, `LexicographicIterator` constructed with
`limits[i] = n-k+i+1`, `index_map[i] = i-1`, `increments[i] = 1` produces
exactly the `C(n, k)` strictly increasing index tuples over `{0, …, n-1}`,
each exactly once, in lexicographic order. -/
theorem claim_C2_ksubset_enumeration (n k : Nat) (hk : 1 ≤ k) (hkn : k ≤ n) :
    subsetIterSpec n k := by
  have hchoose : 1 ≤ n.choose k := Nat.choose_pos hkn
  obtain ⟨hhalts, hrun⟩ := subsets_enumeration n k hk hkn
  have houts := hrun (n.choose k) (le_refl _)
  refine ⟨lexInit_sub n k, ?_, ?_, ?_, ?_⟩
  · rw [houts, (subsetsSorted_perm n k).length_eq, subsetsAll_length]
  · rw [houts]
    exact subsetsSorted_pairwise n k
  · intro t
    rw [houts, (subsetsSorted_perm n k).mem_iff, mem_subsetsAll_iff_validC]
    exact Iff.rfl
  · intro fuel hfuel
    rw [hrun fuel hfuel, houts]

/-- Witness for C2 at `n = 3`, `k = 2`. -/
theorem claim_C2_witness : 1 ≤ 2 ∧ 2 ≤ 3 ∧ subsetIterSpec 3 2 :=
  ⟨by decide, by decide, claim_C2_ksubset_enumeration 3 2 (by decide) (by decide)⟩

/-- The configuration stored for `limits = (3, 2)`, `index_map = (-1, 0)`,
`increments = (0, 0)` — an input the construction validation accepts. -/
def c3cfg : LexCfg := ⟨2, [2, 1], [-1, 0], [0, 0]⟩

/-- C3 counterexample: a validated construction input (no `ValueError`)
whose iterator reaches the index tuple `(2, 2)`, violating
`T[1] ≤ limits[1]` for the stored maximum `limits[1] = 1`.  So the
claimed invariant `0 ≤ T[i] ≤ limits[i]` for all positions fails. -/
theorem claim_C3_counterexample :
    lexInit [3, 2] [-1, 0] [0, 0] = Except.ok c3cfg ∧
    [2, 2] ∈ runStream (lexStep c3cfg) (lexInitT c3cfg) 4 ∧
    ¬ (([2, 2] : List Int).getD 1 0 ≤ c3cfg.limits.getD 1 0) :=
  ⟨rfl, by decide, by decide⟩

/-- C3 amended: for every accepted construction input whose stored limit
is non-negative at position 0 and at every sentinel position
(`index_map[i] < 0`), every index tuple the iterator visits satisfies
`0 ≤ T[i] ≤ limits[i]` at position 0 and at every sentinel position; for
positions initialized from another position the bound can fail, as the
counterexample shows. -/
theorem claim_C3_amended_sentinel_bounds (limits index_map increments : List Int)
    (cfg : LexCfg) (hok : lexInit limits index_map increments = Except.ok cfg)
    (hpos : ∀ i, i < cfg.k → (cfg.index_map.getD i 0 < 0 ∨ i = 0) →
      0 ≤ cfg.limits.getD i 0) (fuel : Nat) :
    ∀ T, T ∈ runStream (lexStep cfg) (lexInitT cfg) fuel →
      ∀ i, i < cfg.k → (cfg.index_map.getD i 0 < 0 ∨ i = 0) →
        0 ≤ T.getD i 0 ∧ T.getD i 0 ≤ cfg.limits.getD i 0 := by
  clear hok
  intro T hT
  have hinv := @runStream_invariant (lexStep cfg)
    (fun T => T.length = cfg.k ∧ ∀ i, i < cfg.k →
      (cfg.index_map.getD i 0 < 0 ∨ i = 0) →
      0 ≤ T.getD i 0 ∧ T.getD i 0 ≤ cfg.limits.getD i 0)
    ?pres fuel (lexInitT cfg) ?init T hT
  case init =>
    constructor
    · rw [lexInitT, rolloverFrom_length]
      simp
    · intro i hi hsent
      have hlen0 : ((List.replicate cfg.k (0 : Int)).set 0 0).length = cfg.k := by simp
      rcases Nat.eq_zero_or_pos i with rfl | hpos'
      · rw [lexInitT, rolloverFrom_getD_frozen _ _ _ (Or.inl (by omega)),
          getD_set_self (by simpa using hi)]
        exact ⟨le_refl 0, hpos 0 hi hsent⟩
      · have hsent' : cfg.index_map.getD i 0 < 0 := by
          rcases hsent with h | h
          · exact h
          · omega
        rw [lexInitT, rolloverFrom_getD_sentinel _ _ _ hlen0 hsent' (by omega) hi]
        exact ⟨le_refl 0, hpos i hi hsent⟩
  case pres =>
    intro T T' hP hstep
    obtain ⟨hlen, hbound⟩ := hP
    unfold lexStep at hstep
    cases hfind : findLast (fun g => decide (T.getD g 0 < cfg.limits.getD g 0)) cfg.k with
    | none => rw [hfind] at hstep; exact absurd hstep (by simp)
    | some g =>
      rw [hfind] at hstep
      obtain ⟨hgk, hPg, _⟩ := findLast_eq_some.mp hfind
      have hguard : T.getD g 0 < cfg.limits.getD g 0 := by simpa using hPg
      simp only [Option.some_inj] at hstep
      subst hstep
      have hlen1 : (T.set g (T.getD g 0 + 1)).length = cfg.k := by simpa using hlen
      constructor
      · rw [rolloverFrom_length]
        exact hlen1
      · intro i hi hsent
        rcases Nat.lt_trichotomy i g with h1 | rfl | h1
        · rw [rolloverFrom_getD_frozen _ _ _ (Or.inl (by omega)),
            getD_set_other (by omega)]
          exact hbound i hi hsent
        · rw [rolloverFrom_getD_frozen _ _ _ (Or.inl (by omega)),
            getD_set_self (by omega)]
          have := hbound i hi hsent
          omega
        · have hsent' : cfg.index_map.getD i 0 < 0 := by
            rcases hsent with h | h
            · exact h
            · omega
          rw [rolloverFrom_getD_sentinel _ _ _ hlen1 hsent' (by omega) hi]
          exact ⟨le_refl 0, hpos i hi hsent⟩
  exact fun i hi hsent => hinv.2 i hi hsent

/-- Witness for the amended C3 at the concrete accepted input
`limits = (3, 3)`, `index_map = (-1, 0)`, `increments = (0, 1)`. -/
theorem claim_C3_witness :
    lexInit [3, 3] [-1, 0] [0, 1] =
      Except.ok (⟨2, [2, 2], [-1, 0], [0, 1]⟩ : LexCfg) ∧
    (∀ T, T ∈ runStream (lexStep ⟨2, [2, 2], [-1, 0], [0, 1]⟩)
        (lexInitT ⟨2, [2, 2], [-1, 0], [0, 1]⟩) 3 →
      ∀ i, i < (⟨2, [2, 2], [-1, 0], [0, 1]⟩ : LexCfg).k →
        ((⟨2, [2, 2], [-1, 0], [0, 1]⟩ : LexCfg).index_map.getD i 0 < 0 ∨ i = 0) →
        0 ≤ T.getD i 0 ∧
          T.getD i 0 ≤ (⟨2, [2, 2], [-1, 0], [0, 1]⟩ : LexCfg).limits.getD i 0) :=
  ⟨rfl,
    claim_C3_amended_sentinel_bounds [3, 3] [-1, 0] [0, 1]
      ⟨2, [2, 2], [-1, 0], [0, 1]⟩ rfl (by decide) 3⟩

/-- The configuration stored for the C4 scenario `limits = (3, 3)`,
`index_map = (-1, 0)`, `increments = (0, 1)`. -/
def c4cfg : LexCfg := ⟨2, [2, 2], [-1, 0], [0, 1]⟩

/-- C4 counterexample: the scenario's first three pulls do produce
`('a','b')`, `('a','c')`, `('b','c')`, but the fourth pull raises
`IndexError` (the buffer advances to `(2, 3)` and the gather reads past
the 3-item tuple) instead of signalling end-of-sequence. -/
theorem claim_C4_counterexample :
    lexInit [3, 3] [-1, 0] [0, 1] = Except.ok c4cfg ∧
    (lexPullN ['a', 'b', 'c'] ⟨c4cfg, lexInitT c4cfg, 0⟩ 4).1 =
      [PullResult.item ['a', 'b'], PullResult.item ['a', 'c'],
        PullResult.item ['b', 'c'], PullResult.indexError] ∧
    (PullResult.indexError : PullResult Char) ≠ PullResult.stop :=
  ⟨rfl, by decide, by decide⟩

/-- C4 amended: the iterator built from `items = ('a','b','c')`,
`limits = (3, 3)`, `index_map = (-1, 0)`, `increments = (0, 1)` produces
exactly the three tuples `('a','b')`, `('a','c')`, `('b','c')` on its
first three pulls; the fourth pull raises `IndexError` (not
end-of-sequence), and every pull after the fourth signals
end-of-sequence. -/
theorem claim_C4_amended_indexerror (r : Nat) :
    (lexPullN ['a', 'b', 'c'] ⟨c4cfg, lexInitT c4cfg, 0⟩ (4 + r)).1 =
      [PullResult.item ['a', 'b'], PullResult.item ['a', 'c'],
        PullResult.item ['b', 'c'], PullResult.indexError] ++
      List.replicate r PullResult.stop := by
  rw [lexPullN_add]
  have h4 : lexPullN ['a', 'b', 'c'] ⟨c4cfg, lexInitT c4cfg, 0⟩ 4 =
      ([PullResult.item ['a', 'b'], PullResult.item ['a', 'c'],
        PullResult.item ['b', 'c'], PullResult.indexError],
        ⟨c4cfg, [2, 3], 1⟩) := by decide
  rw [h4]
  congr 1
  cases r with
  | zero => rfl
  | succ r =>
    have hpull : lexPull ['a', 'b', 'c'] (⟨c4cfg, [2, 3], 1⟩ : LexState) =
        (PullResult.stop, ⟨c4cfg, [2, 3], 2⟩) := by decide
    rw [lexPullN_succ, hpull]
    simp only [lexPullN_stop]
    rw [List.replicate_succ]

/-- C5: `count_permutations3` is claimed to return 3 whenever exactly two
distinct values appear, regardless of position; but for the pattern
`(a, b, a)` the code returns 1 (the multiset `{a, a, b}` has 3 distinct
arrangements).  Evaluation at the failing input `(0, 1, 0)`. -/
theorem claim_C5_code_evaluation :
    count_permutations3 (0 : Int) 1 0 = 1 ∧ (1 : Nat) ≠ 3 := by decide

/-- C6: `sort3_int` is claimed to sort ascending with
`sort3_int 3 1 2 = (1, 2, 3)`; the code returns `(2, 1, 3)`, which is not
sorted.  Evaluation at the failing input. -/
theorem claim_C6_code_evaluation :
    sort3_int 3 1 2 = (2, 1, 3) ∧ ((2, 1, 3) : Int × Int × Int) ≠ (1, 2, 3) := by
  decide

/-- C7: `sort3_int` is claimed idempotent; but applying it twice to
`(3, 1, 2)` gives `(1, 2, 3)` while one application gives `(2, 1, 3)`. -/
theorem claim_C7_code_evaluation :
    sort3_int 3 1 2 = (2, 1, 3) ∧ sort3_int 2 1 3 = (1, 2, 3) ∧
      ((1, 2, 3) : Int × Int × Int) ≠ (2, 1, 3) := by decide

/-- C8: `LexicographicIterator.__init__` raises `ValueError` exactly when
some `index_map[i]` (for a position `i < k`) exceeds `k = len(limits)`;
in particular `index_map[i] = k` is accepted (the bound check is
`im > k`, not `im >= k`). -/
theorem claim_C8_lexInit_validation (limits index_map increments : List Int)
    (hlen : index_map.length = limits.length) :
    (∃ e, lexInit limits index_map increments = Except.error e) ↔
      ∃ i, i < limits.length ∧ (limits.length : Int) < index_map.getD i 0 := by
  clear hlen
  unfold lexInit
  cases hmap : storeIndexMap limits.length index_map (List.range limits.length) with
  | error e =>
    constructor
    · intro _
      obtain ⟨a, ha, hgt⟩ :=
        (storeIndexMap_error_iff limits.length index_map (List.range limits.length)).mp
          ⟨e, hmap⟩
      exact ⟨a, List.mem_range.mp ha, hgt⟩
    · intro _
      exact ⟨e, rfl⟩
  | ok ims =>
    constructor
    · rintro ⟨e, he⟩
      exact absurd he (fun h => Except.noConfusion h)
    · rintro ⟨i, hi, hgt⟩
      obtain ⟨e, he⟩ :=
        (storeIndexMap_error_iff limits.length index_map (List.range limits.length)).mpr
          ⟨i, List.mem_range.mpr hi, hgt⟩
      rw [hmap] at he
      exact absurd he (fun h => Except.noConfusion h)

/-- Witness for C8: with `k = 2`, `index_map = (-1, 2)` contains an entry
equal to `k`, and construction is accepted without error. -/
theorem claim_C8_witness :
    ([(-1 : Int), 2].length = [(2 : Int), 2].length) ∧
      ¬ (∃ e, lexInit [2, 2] [-1, 2] [0, 0] = Except.error e) :=
  ⟨by decide, fun h => by
    obtain ⟨i, hi, hgt⟩ :=
      (claim_C8_lexInit_validation [2, 2] [-1, 2] [0, 0] (by decide)).mp h
    have hi2 : i = 0 ∨ i = 1 := by
      simp only [List.length_cons, List.length_nil] at hi
      omega
    rcases hi2 with rfl | rfl
    · exact absurd hgt (by decide)
    · exact absurd hgt (by decide)⟩

/-- C9 counterexample: constructing with the non-positive limit
`limits = (0,)` does not fail — `__init__` returns normally (the only
validation is on `index_map`), contradicting the claimed
construction-time error. -/
theorem claim_C9_counterexample :
    lexInit [0] [-1] [0] = Except.ok (⟨1, [-1], [-1], [0]⟩ : LexCfg) ∧
      ¬ (∃ e, lexInit [0] [-1] [0] = Except.error e) :=
  ⟨rfl, fun ⟨e, he⟩ => by
    rw [show lexInit [0] [-1] [0] = Except.ok (⟨1, [-1], [-1], [0]⟩ : LexCfg)
      from rfl] at he
    exact Except.noConfusion he⟩

/-- C9 amended: construction with a non-positive `limits[i]` succeeds
(limits are not validated at all); over a 1-item sequence with
`limits = (0,)` the iterator even produces its initial tuple before
signalling end-of-sequence. -/
theorem claim_C9_amended_no_limit_validation :
    lexInit [0] [-1] [0] = Except.ok (⟨1, [-1], [-1], [0]⟩ : LexCfg) ∧
    (lexPullN ['a'] ⟨⟨1, [-1], [-1], [0]⟩, lexInitT ⟨1, [-1], [-1], [0]⟩, 0⟩ 3).1 =
      [PullResult.item ['a'], PullResult.stop, PullResult.stop] :=
  ⟨rfl, by decide⟩

/-- C10: `PermutationIterator` over an empty item sequence does not fail:
it produces exactly one tuple, the empty tuple, and every subsequent pull
signals end-of-sequence. -/
theorem claim_C10_empty_sequence (α : Type) (m : Nat) :
    (permPullN ([] : List α) (permInit ([] : List α)) (m + 1)).1 =
      PullResult.item [] :: List.replicate m PullResult.stop := by
  have hhalts : haltsIn permStep (rangeInt 0 ([] : List α).length) 0 := by
    show permStep (rangeInt 0 0) = none
    rfl
  have h := permPullN_protocol ([] : List α) 0 m hhalts
  rw [show 0 + 1 + m = m + 1 from by omega] at h
  rw [h]
  rfl

end Pydmc
